import Mathlib

/-!
Verification development for the A.R.C.A.N.U.M. multi-agent traffic control
system.  The Python sources are shallowly embedded: the TraCI simulation
surface is modelled as explicit state records (with `Option` results standing
for queries that raise), floating point times and lengths are modelled as
rationals, and the stateful agent behaviours become pure step functions or
transition systems.
-/

set_option maxRecDepth 4000

/-- Association-list lookup keyed on strings, modelling Python dict lookup
(first binding wins; our update discipline keeps keys unique). -/
def alookup {β : Type} : List (String × β) → String → Option β
  | [], _ => none
  | (k, v) :: rest, x => if x = k then some v else alookup rest x

/-- Association-list insert-or-replace, modelling Python dict assignment. -/
def aupsert {β : Type} : List (String × β) → String → β → List (String × β)
  | [], k, v => [(k, v)]
  | (k', v') :: rest, k, v =>
      if k = k' then (k, v) :: rest else (k', v') :: aupsert rest k v

theorem alookup_aupsert_self {β : Type} (l : List (String × β)) (k : String) (v : β) :
    alookup (aupsert l k v) k = some v := by
  induction l with
  | nil => simp [aupsert, alookup]
  | cons p rest ih =>
      by_cases h : k = p.1
      · simp [aupsert, h, alookup]
      · simp [aupsert, h, alookup, ih]

theorem alookup_aupsert_ne {β : Type} (l : List (String × β)) (k x : String) (v : β)
    (hx : x ≠ k) : alookup (aupsert l k v) x = alookup l x := by
  induction l with
  | nil => simp [aupsert, alookup, hx]
  | cons p rest ih =>
      by_cases h : k = p.1
      · subst h
        simp [aupsert, alookup, hx]
      · by_cases h2 : x = p.1
        · simp [aupsert, h, alookup, h2]
        · simp [aupsert, h, alookup, h2, ih]

theorem aupsert_keys {β : Type} (l : List (String × β)) (k : String) (v : β) :
    (aupsert l k v).map Prod.fst =
      if k ∈ l.map Prod.fst then l.map Prod.fst else l.map Prod.fst ++ [k] := by
  induction l with
  | nil => simp [aupsert]
  | cons p rest ih =>
      by_cases h : k = p.1
      · simp [aupsert, h]
      · simp only [aupsert, if_neg h, List.map_cons, ih]
        by_cases h2 : k ∈ rest.map Prod.fst
        · simp [h2, Ne.symm h, h]
        · simp [h2, Ne.symm h, h]

/-- The simulation surface consulted by the blockage checks and the reroute
logic: a query returning `none` models the corresponding TraCI call raising.
`lanes e` gives, per lane of edge `e`, the list of disallowed vehicle classes
(standing for getLaneNumber plus getDisallowed on each constructed lane id). -/
structure SimState where
  loaded : Bool
  lanes : String → Option (List (List String))
  traveltime : String → Option ℚ
  length : String → Option ℚ
  maxSpeed : String → Option ℚ

/-- True when every lane in the per-lane disallowed lists shuts out the
passenger class; vacuously true for an edge with zero lanes, exactly as the
Python loops behave. -/
def allLanesClosed (dis : List (List String)) : Bool :=
  dis.all (fun d => decide ("passenger" ∈ d))

/-- RouteFinder._is_edge_blocked: reports open when TraCI is not loaded and
when the lane queries raise, otherwise true iff all lanes disallow passenger
vehicles. -/
def is_edge_blocked (sim : SimState) (e : String) : Bool :=
  if sim.loaded = false then false
  else
    match sim.lanes e with
    | none => false
    | some dis => allLanesClosed dis

/-- The inline all-lanes-closed check repeated inside CarInfoAgent's
behaviours: same lane scan as RouteFinder._is_edge_blocked but with no
isLoaded guard (the behaviours check isLoaded once per tick), and any raise
makes the edge count as open. -/
def edgeClosedInline (sim : SimState) (e : String) : Bool :=
  match sim.lanes e with
  | none => false
  | some dis => allLanesClosed dis

/-- C6: the edge-blockage query returns true iff every lane of the edge is
closed to the passenger class, and it fails open — reporting the edge as not
blocked — both when the simulation is not loaded and when the underlying
lane queries raise. -/
theorem is_edge_blocked_spec (sim : SimState) (e : String) :
    (sim.loaded = false → is_edge_blocked sim e = false) ∧
    (sim.lanes e = none → is_edge_blocked sim e = false) ∧
    (sim.loaded = true → ∀ dis, sim.lanes e = some dis →
      (is_edge_blocked sim e = true ↔ ∀ d ∈ dis, "passenger" ∈ d)) := by
  refine ⟨fun h => by simp [is_edge_blocked, h], fun h => ?_, fun hl dis hd => ?_⟩
  · cases hload : sim.loaded <;> simp [is_edge_blocked, hload, h]
  · simp [is_edge_blocked, hl, hd, allLanesClosed, List.all_eq_true]

/-- Concrete instantiation of the C6 theorem: a two-lane edge with both lanes
closed to passengers is reported blocked, and the unloaded simulation reports
open. -/
theorem is_edge_blocked_spec_witness :
    is_edge_blocked
      ⟨true, fun _ => some [["passenger"], ["passenger", "bus"]],
        fun _ => none, fun _ => none, fun _ => none⟩ "E1" = true ∧
    is_edge_blocked
      ⟨false, fun _ => some [[]], fun _ => none, fun _ => none, fun _ => none⟩ "E1" = false := by
  constructor
  · exact ((is_edge_blocked_spec
      ⟨true, fun _ => some [["passenger"], ["passenger", "bus"]],
        fun _ => none, fun _ => none, fun _ => none⟩ "E1").2.2 rfl
      [["passenger"], ["passenger", "bus"]] rfl).mpr (by decide)
  · exact (is_edge_blocked_spec
      ⟨false, fun _ => some [[]], fun _ => none, fun _ => none, fun _ => none⟩ "E1").1 rfl

/-- The per-junction simulation surface read by get_traffic_demand.  `none`
models the corresponding TraCI query raising; `laneWaiting` is part of the
observable surface but is never consulted by the code. -/
structure TLSim where
  controlledLanes : Option (List String)
  controlledLinks : Option (List (List (List String)))
  laneVehicles : String → Option ℕ
  laneWaiting : String → Option ℚ

/-- The getControlledLinks fallback: collect the incoming lane (element 0) of
every link whose tuple has at least three components. -/
def linksToLanes (links : List (List (List String))) : List String :=
  links.flatMap (fun grp =>
    grp.filterMap (fun link => if 3 ≤ link.length then link.head? else none))

/-- Order-preserving de-duplication, modelling list(dict.fromkeys(lanes)). -/
def dedupKeepFirst (seen : List String) : List String → List String
  | [] => []
  | x :: xs =>
      if x ∈ seen then dedupKeepFirst seen xs
      else x :: dedupKeepFirst (x :: seen) xs

/-- TrafficLightAgent.get_traffic_demand: sum of current vehicle numbers over
the de-duplicated controlled lanes (falling back to the link tuples when the
lane list is empty); a raising lane query is skipped, a raising junction
query yields 0. -/
def get_traffic_demand (sim : TLSim) : ℕ :=
  match sim.controlledLanes with
  | none => 0
  | some lanes0 =>
    match (if lanes0 = [] then sim.controlledLinks.map linksToLanes else some lanes0) with
    | none => 0
    | some lanes1 =>
      (dedupKeepFirst [] lanes1).foldl
        (fun acc l =>
          match sim.laneVehicles l with
          | none => acc
          | some n => acc + n) 0

/-- Demand score as the specification words it: queued vehicles plus 0.2
times their cumulative waiting time.  (Modelled from the spec, for comparison
with get_traffic_demand, which the source actually computes.) -/
def specDemandScore (queued : ℕ) (waiting : ℚ) : ℚ :=
  (queued : ℚ) + (2 / 10) * waiting

theorem demand_foldl_eq_sum (sim : TLSim) (ls : List String) (a : ℕ) :
    (ls.foldl (fun acc l =>
      match sim.laneVehicles l with
      | none => acc
      | some n => acc + n) a)
      = a + (ls.map (fun l => (sim.laneVehicles l).getD 0)).sum := by
  induction ls generalizing a with
  | nil => simp
  | cons x xs ih =>
      cases hx : sim.laneVehicles x <;>
        simp [ih, hx, Option.getD, Nat.add_assoc]

/-- C8 counterexample: a junction with one controlled lane holding 3 queued
vehicles and cumulative waiting time 10.  The code computes demand 3 (it
never reads the waiting time), while the claimed score would be
3 + 0.2 * 10 = 5. -/
theorem get_traffic_demand_no_waiting_cex :
    get_traffic_demand
        ⟨some ["L0"], none, fun _ => some 3, fun _ => some 10⟩ = 3 ∧
    (⟨some ["L0"], none, fun _ => some 3, fun _ => some 10⟩ : TLSim).laneWaiting "L0"
        = some 10 ∧
    ((3 : ℕ) : ℚ) ≠ specDemandScore 3 10 := by
  refine ⟨rfl, rfl, ?_⟩
  norm_num [specDemandScore]

/-- C8 (amended): the demand computed by the signal controller is the sum of
the per-lane vehicle counts over the de-duplicated controlled lanes — the
waiting time is never queried — and it is monotonically non-decreasing in
every lane's vehicle count, all else fixed. -/
theorem get_traffic_demand_sum_and_mono (sim sim' : TLSim)
    (hlanes : sim'.controlledLanes = sim.controlledLanes)
    (hlinks : sim'.controlledLinks = sim.controlledLinks)
    (hmono : ∀ l, (sim.laneVehicles l).getD 0 ≤ (sim'.laneVehicles l).getD 0) :
    (∀ lanes0, sim.controlledLanes = some lanes0 → lanes0 ≠ [] →
      get_traffic_demand sim
        = ((dedupKeepFirst [] lanes0).map (fun l => (sim.laneVehicles l).getD 0)).sum) ∧
    get_traffic_demand sim ≤ get_traffic_demand sim' := by
  constructor
  · intro lanes0 h0 hne
    simp [get_traffic_demand, h0, hne, demand_foldl_eq_sum]
  · unfold get_traffic_demand
    rw [hlanes, hlinks]
    rcases h0 : sim.controlledLanes with _ | lanes0
    · simp [h0]
    · simp only [h0]
      rcases h1 : (if lanes0 = [] then sim.controlledLinks.map linksToLanes else some lanes0)
        with _ | lanes1
      · simp [h1]
      · simp only [h1, demand_foldl_eq_sum, Nat.zero_add]
        exact List.sum_le_sum (fun l _ => hmono l)

/-- Concrete instantiation of the C8 amended theorem: one lane going from 2
to 4 queued vehicles does not decrease the demand. -/
theorem get_traffic_demand_sum_and_mono_witness :
    get_traffic_demand ⟨some ["L0"], none, fun _ => some 2, fun _ => none⟩
      = (([("L0" : String)].map (fun _ => (2 : ℕ))).sum) ∧
    get_traffic_demand ⟨some ["L0"], none, fun _ => some 2, fun _ => none⟩
      ≤ get_traffic_demand ⟨some ["L0"], none, fun _ => some 4, fun _ => none⟩ := by
  have h := get_traffic_demand_sum_and_mono
    ⟨some ["L0"], none, fun _ => some 2, fun _ => none⟩
    ⟨some ["L0"], none, fun _ => some 4, fun _ => none⟩
    rfl rfl (fun l => by simp [Option.getD])
  exact ⟨h.1 ["L0"] rfl (by decide), h.2⟩

/-- TrafficLightAgent.determine_next_phase, with TRAFFIC_THRESHOLD = 5:
under low demand a green phase (0 or 2) moves to its yellow phase (1 or 3);
a yellow phase always advances to the next green; any other index is kept. -/
def determine_next_phase (current demand : ℕ) : ℕ :=
  if demand < 5 then
    if current = 0 then 1
    else if current = 2 then 3
    else if current = 1 then 2
    else if current = 3 then 0
    else current
  else
    if current = 1 then 2
    else if current = 3 then 0
    else current

/-- The phase trajectory of TrafficLightAgent.ControlBehaviour: one
determine_next_phase evaluation per control tick (the behaviour sleeps a
fixed period between ticks), driven by the observed demand at each tick. -/
def tlRun (demands : ℕ → ℕ) (p0 : ℕ) : ℕ → ℕ
  | 0 => p0
  | n + 1 => determine_next_phase (tlRun demands p0 n) (demands n)

/-- C9 counterexample: with zero demand everywhere (so no competing phase's
demand exceeds the current green phase's demand by any factor), the
controller leaves green phase 0 on the very first tick — there is no
min_green dwell — and the yellow phase 1 is left one tick later as well, so
green residence is bounded by the demand threshold alone, not by
min_green/max_green timers. -/
theorem determine_next_phase_no_min_green_cex :
    determine_next_phase 0 0 = 1 ∧
    tlRun (fun _ => 0) 0 1 = 1 ∧
    tlRun (fun _ => 0) 0 2 = 2 ∧
    determine_next_phase 0 10 = 0 := by
  decide

/-- C9 (amended): the controller has no min_green/max_green/yellow_time/
red_time machinery; each tick, a green phase (0 or 2) is left exactly when
the junction-wide demand is below the fixed threshold 5, a yellow phase
(1 or 3) always advances to the opposing green on the next tick, and any
other phase index is never changed. -/
theorem determine_next_phase_characterization (p d : ℕ) :
    (p = 0 → determine_next_phase p d = if d < 5 then 1 else 0) ∧
    (p = 2 → determine_next_phase p d = if d < 5 then 3 else 2) ∧
    (p = 1 → determine_next_phase p d = 2) ∧
    (p = 3 → determine_next_phase p d = 0) ∧
    (p ≠ 0 → p ≠ 1 → p ≠ 2 → p ≠ 3 → determine_next_phase p d = p) ∧
    (∀ demands p0 n, tlRun demands p0 n = 1 → tlRun demands p0 (n + 1) = 2) ∧
    (∀ demands p0 n, tlRun demands p0 n = 3 → tlRun demands p0 (n + 1) = 0) := by
  refine ⟨?_, ?_, ?_, ?_, ?_, ?_, ?_⟩
  · rintro rfl
    by_cases h : d < 5 <;> simp [determine_next_phase, h]
  · rintro rfl
    by_cases h : d < 5 <;> simp [determine_next_phase, h]
  · rintro rfl
    by_cases h : d < 5 <;> simp [determine_next_phase, h]
  · rintro rfl
    by_cases h : d < 5 <;> simp [determine_next_phase, h]
  · intro h0 h1 h2 h3
    by_cases h : d < 5 <;> simp [determine_next_phase, h, h0, h1, h2, h3]
  · intro demands p0 n h
    have hs : tlRun demands p0 (n + 1)
        = determine_next_phase (tlRun demands p0 n) (demands n) := rfl
    rw [hs, h]
    by_cases hd : demands n < 5 <;> simp [determine_next_phase, hd]
  · intro demands p0 n h
    have hs : tlRun demands p0 (n + 1)
        = determine_next_phase (tlRun demands p0 n) (demands n) := rfl
    rw [hs, h]
    by_cases hd : demands n < 5 <;> simp [determine_next_phase, hd]

/-- Concrete instantiation of the C9 amended theorem: high demand keeps the
green phase, and a yellow phase advances on the following tick. -/
theorem determine_next_phase_characterization_witness :
    determine_next_phase 0 7 = 0 ∧ tlRun (fun _ => 7) 1 1 = 2 := by
  refine ⟨?_, ?_⟩
  · have h := (determine_next_phase_characterization 0 7).1 rfl
    simpa using h
  · exact (determine_next_phase_characterization 1 7).2.2.2.2.2.1 (fun _ => 7) 1 0 rfl

/-- Splitter on a separator character, modelling Python str.split(sep):
keeps empty pieces and returns the whole string when the separator is
absent. -/
def splitChars (sep : Char) (acc : List Char) : List Char → List (List Char)
  | [] => [acc.reverse]
  | c :: rest =>
      if c = sep then acc.reverse :: splitChars sep [] rest
      else splitChars sep (c :: acc) rest

/-- Python content.split(":"). -/
def pySplitColon (s : String) : List String :=
  (splitChars ':' [] s.toList).map (fun cs => ⟨cs⟩)

/-- Prefix test on character lists. -/
def charsStartWith : List Char → List Char → Bool
  | [], _ => true
  | _ :: _, [] => false
  | a :: as, b :: bs => a = b && charsStartWith as bs

/-- Substring containment on character lists. -/
def charsContain (needle : List Char) : List Char → Bool
  | [] => needle.isEmpty
  | c :: rest => charsStartWith needle (c :: rest) || charsContain needle rest

/-- Python's substring operator needle in haystack. -/
def containsSubstring (needle haystack : String) : Bool :=
  charsContain needle.toList haystack.toList

/-- MonitoringAgent.PriorityManagerBehaviour.run on one received message:
when the body contains "priority_request" and splits into at least three
colon-separated parts, look the intersection id (part 2) up in the static
tls-id-to-JID map; forward "priority_request:veh" to the mapped controller,
or drop the message (logging only) when the lookup is falsy — the guard is
Python's `if tls_jid:`, so both a missing entry (`.get` returning None) and
an entry mapping to the empty string take the drop branch.  The result is
the message sent, `none` when nothing is forwarded; `mapping = none` models
an agent without the tls_mapping attribute. -/
def relayTick (mapping : Option (List (String × String))) (msg : Option String) :
    Option (String × String) :=
  match msg with
  | none => none
  | some content =>
      if containsSubstring "priority_request" content = true then
        match mapping with
        | none => none
        | some m =>
            match pySplitColon content with
            | _ :: p1 :: p2 :: _ =>
                match alookup m p2 with
                | some jid =>
                    if jid = "" then none
                    else some (jid, "priority_request:" ++ p1)
                | none => none
            | _ => none
      else none

/-- C7 counterexample: the static map does assign intersection tls1 a
controller address — the empty string — yet the relay drops the request
instead of forwarding an equivalent request to that address, because the
source guards the forward with Python truthiness (`if tls_jid:`), which
treats the empty string like a missing entry. -/
theorem relayTick_empty_jid_cex :
    alookup [("tls1", "")] "tls1" = some "" ∧
    relayTick (some [("tls1", "")]) (some "priority_request:amb0:tls1") = none := by
  decide

/-- C7 (amended): a received priority request naming vehicle V and
intersection X is forwarded, as a request carrying V, to exactly the
controller the static map assigns to X whenever that assignment is a
non-empty JID; when X is unmapped — or mapped to the empty string, which
the source's `if tls_jid:` truthiness guard treats as unmapped — nothing is
sent: the request is dropped (after logging) without raising, and the
stateless behaviour holds no retry state. -/
theorem relayTick_forwards_or_drops (m : List (String × String))
    (content v x : String) (rest : List String)
    (hsub : containsSubstring "priority_request" content = true)
    (hsplit : pySplitColon content = "priority_request" :: v :: x :: rest) :
    (∀ jid, alookup m x = some jid → jid ≠ "" →
      relayTick (some m) (some content) = some (jid, "priority_request:" ++ v)) ∧
    (alookup m x = none ∨ alookup m x = some "" →
      relayTick (some m) (some content) = none) := by
  constructor
  · intro jid hj hne
    simp [relayTick, hsub, hsplit, hj, hne]
  · rintro (hj | hj)
    · simp [relayTick, hsub, hsplit, hj]
    · simp [relayTick, hsub, hsplit, hj]

/-- Concrete instantiation of the C7 theorem: a request for vehicle amb0 at
intersection tls1, mapped to a non-empty controller address, is forwarded to
that address, and the same request at unmapped intersection tls9 is
dropped. -/
theorem relayTick_forwards_or_drops_witness :
    relayTick (some [("tls1", "tl1@localhost")]) (some "priority_request:amb0:tls1")
      = some ("tl1@localhost", "priority_request:amb0") ∧
    relayTick (some [("tls1", "tl1@localhost")]) (some "priority_request:amb0:tls9")
      = none := by
  constructor
  · exact (relayTick_forwards_or_drops [("tls1", "tl1@localhost")]
      "priority_request:amb0:tls1" "amb0" "tls1" [] (by decide) (by decide)).1
      "tl1@localhost" (by decide) (by decide)
  · exact (relayTick_forwards_or_drops [("tls1", "tl1@localhost")]
      "priority_request:amb0:tls9" "amb0" "tls9" [] (by decide) (by decide)).2
      (Or.inl (by decide))

/-- Shared claim-registry state of CarInfoAgent: the class-level
claimed_vehicles set (as an insertion-ordered list) together with every
agent's own vehicle_id field (`owner a`).  All mutations happen under the
single claim_lock, so the concurrent execution is modelled as an arbitrary
serialization of atomic operations. -/
structure ClaimSystem where
  claimed : List String
  owner : ℕ → Option String

/-- The scan inside CarInfoBehaviour.run: first vehicle id that is not in
claimed_vehicles and whose type is not ambulance (a raising getTypeID lets
the vehicle through, as the except/pass does). -/
def tryClaimPick (claimed : List String) (typeID : String → Option String) :
    List String → Option String
  | [] => none
  | cid :: rest =>
      if cid ∈ claimed then tryClaimPick claimed typeID rest
      else if typeID cid = some "ambulance" then tryClaimPick claimed typeID rest
      else some cid

/-- One lock-protected claim attempt by agent `a` over the currently listed
vehicles: only an agent whose vehicle_id is None scans, and on success the
picked id is added to claimed_vehicles and stored in the agent's
vehicle_id. -/
def claimStep (s : ClaimSystem) (a : ℕ) (carIds : List String)
    (typeID : String → Option String) : ClaimSystem :=
  match s.owner a with
  | some _ => s
  | none =>
      match tryClaimPick s.claimed typeID carIds with
      | none => s
      | some cid =>
          { claimed := s.claimed ++ [cid],
            owner := fun b => if b = a then some cid else s.owner b }

/-- One lock-protected release by agent `a` (vehicle finished, disappeared
or was despawned on a closed final edge): the owned id is discarded from
claimed_vehicles if present and the agent's vehicle_id is cleared. -/
def releaseStep (s : ClaimSystem) (a : ℕ) : ClaimSystem :=
  match s.owner a with
  | none => s
  | some v =>
      { claimed := s.claimed.erase v,
        owner := fun b => if b = a then none else s.owner b }

/-- A serialized history of lock-protected registry operations. -/
inductive ClaimOp where
  | claim (a : ℕ) (carIds : List String) (typeID : String → Option String)
  | release (a : ℕ)

def applyClaimOp (s : ClaimSystem) : ClaimOp → ClaimSystem
  | ClaimOp.claim a carIds typeID => claimStep s a carIds typeID
  | ClaimOp.release a => releaseStep s a

/-- Registry state at start of the process: nothing claimed, no agent
controls a vehicle. -/
def initClaimSystem : ClaimSystem := ⟨[], fun _ => none⟩

def runClaimOps (ops : List ClaimOp) : ClaimSystem :=
  ops.foldl applyClaimOp initClaimSystem

/-- The registry invariant: every owned vehicle id is recorded in
claimed_vehicles, and no vehicle id is owned by two distinct agents. -/
def ClaimInv (s : ClaimSystem) : Prop :=
  (∀ a v, s.owner a = some v → v ∈ s.claimed) ∧
  (∀ a b v, s.owner a = some v → s.owner b = some v → a = b)

theorem tryClaimPick_spec (claimed : List String) (typeID : String → Option String)
    (carIds : List String) (cid : String)
    (h : tryClaimPick claimed typeID carIds = some cid) :
    cid ∉ claimed ∧ cid ∈ carIds := by
  induction carIds with
  | nil => simp [tryClaimPick] at h
  | cons x rest ih =>
      by_cases hx : x ∈ claimed
      · simp only [tryClaimPick, if_pos hx] at h
        rcases ih h with ⟨h1, h2⟩
        exact ⟨h1, List.mem_cons_of_mem _ h2⟩
      · by_cases hamb : typeID x = some "ambulance"
        · simp only [tryClaimPick, if_neg hx, if_pos hamb] at h
          rcases ih h with ⟨h1, h2⟩
          exact ⟨h1, List.mem_cons_of_mem _ h2⟩
        · simp only [tryClaimPick, if_neg hx, if_neg hamb, Option.some.injEq] at h
          subst h
          exact ⟨hx, List.mem_cons_self _ _⟩

theorem claimInv_preserved (s : ClaimSystem) (op : ClaimOp) (hs : ClaimInv s) :
    ClaimInv (applyClaimOp s op) := by
  rcases hs with ⟨hmem, hinj⟩
  cases op with
  | claim a carIds typeID =>
      show ClaimInv (claimStep s a carIds typeID)
      rcases howner : s.owner a with _ | v0
      · rcases hpick : tryClaimPick s.claimed typeID carIds with _ | cid
        · have hres : claimStep s a carIds typeID = s := by
            simp [claimStep, howner, hpick]
          rw [hres]
          exact ⟨hmem, hinj⟩
        · have hres : claimStep s a carIds typeID
              = { claimed := s.claimed ++ [cid],
                  owner := fun b => if b = a then some cid else s.owner b } := by
            simp [claimStep, howner, hpick]
          rw [hres]
          rcases tryClaimPick_spec s.claimed typeID carIds cid hpick with ⟨hnot, _⟩
          constructor
          · intro b v hb
            by_cases hba : b = a
            · subst hba
              have hb2 : some cid = some v := by simpa using hb
              injection hb2 with hb2
              subst hb2
              simp
            · have hb2 : s.owner b = some v := by simpa [hba] using hb
              exact List.mem_append_left _ (hmem b v hb2)
          · intro b c v hb hc
            by_cases hba : b = a <;> by_cases hca : c = a
            · subst hba; subst hca; rfl
            · subst hba
              have hb2 : some cid = some v := by simpa using hb
              injection hb2 with hb2
              have hc2 : s.owner c = some v := by simpa [hca] using hc
              subst hb2
              exact absurd (hmem c cid hc2) hnot
            · subst hca
              have hc2 : some cid = some v := by simpa using hc
              injection hc2 with hc2
              have hb2 : s.owner b = some v := by simpa [hba] using hb
              subst hc2
              exact absurd (hmem b cid hb2) hnot
            · have hb2 : s.owner b = some v := by simpa [hba] using hb
              have hc2 : s.owner c = some v := by simpa [hca] using hc
              exact hinj b c v hb2 hc2
      · have hres : claimStep s a carIds typeID = s := by
          simp [claimStep, howner]
        rw [hres]
        exact ⟨hmem, hinj⟩
  | release a =>
      simp only [applyClaimOp, releaseStep]
      rcases howner : s.owner a with _ | v0
      · exact ⟨hmem, hinj⟩
      · constructor
        · intro b v hb
          by_cases hba : b = a
          · subst hba; simp at hb
          · simp only [if_neg hba] at hb
            have hv : v ≠ v0 := by
              intro hvv
              subst hvv
              exact hba (hinj b a v hb howner)
            exact (List.mem_erase_of_ne hv).mpr (hmem b v hb)
        · intro b c v hb hc
          by_cases hba : b = a
          · subst hba; simp at hb
          · by_cases hca : c = a
            · subst hca; simp at hc
            · simp only [if_neg hba] at hb
              simp only [if_neg hca] at hc
              exact hinj b c v hb hc

/-- C1: along every serialized history of lock-protected claim/release
operations, each vehicle id is owned by at most one controller (and every
owned id is in the claimed set); moreover, when two agents with no vehicle
attempt, one after the other under the lock, to claim the same unclaimed
vehicle id, the first succeeds and the second is left empty-handed. -/
theorem claim_registry_exclusive (ops : List ClaimOp) :
    ClaimInv (runClaimOps ops) ∧
    (∀ (a b : ℕ) (v : String) (typeID : String → Option String),
      a ≠ b →
      (runClaimOps ops).owner a = none →
      (runClaimOps ops).owner b = none →
      v ∉ (runClaimOps ops).claimed →
      typeID v ≠ some "ambulance" →
      (claimStep (runClaimOps ops) a [v] typeID).owner a = some v ∧
      (claimStep (claimStep (runClaimOps ops) a [v] typeID) b [v] typeID).owner b
        = none ∧
      (claimStep (claimStep (runClaimOps ops) a [v] typeID) b [v] typeID).owner a
        = some v) := by
  constructor
  · have h : ∀ (l : List ClaimOp) (s : ClaimSystem), ClaimInv s →
        ClaimInv (l.foldl applyClaimOp s) := by
      intro l
      induction l with
      | nil => intro s hs; exact hs
      | cons op rest ih =>
          intro s hs
          exact ih _ (claimInv_preserved s op hs)
    refine h ops initClaimSystem ⟨?_, ?_⟩ <;> intro a <;> simp [initClaimSystem]
  · intro a b v typeID hab ha hb hv hamb
    have hpick : tryClaimPick (runClaimOps ops).claimed typeID [v] = some v := by
      simp [tryClaimPick, hv, hamb]
    have hstep1 : claimStep (runClaimOps ops) a [v] typeID
        = { claimed := (runClaimOps ops).claimed ++ [v],
            owner := fun c => if c = a then some v else (runClaimOps ops).owner c } := by
      simp [claimStep, ha, hpick]
    have h1 : (claimStep (runClaimOps ops) a [v] typeID).owner a = some v := by
      rw [hstep1]
      simp
    have hbnone : (claimStep (runClaimOps ops) a [v] typeID).owner b = none := by
      rw [hstep1]
      simp [Ne.symm hab, hb]
    have hvclaimed : v ∈ (claimStep (runClaimOps ops) a [v] typeID).claimed := by
      rw [hstep1]
      simp
    have hpick2 : tryClaimPick (claimStep (runClaimOps ops) a [v] typeID).claimed
        typeID [v] = none := by
      simp [tryClaimPick, hvclaimed]
    have hstep2 : claimStep (claimStep (runClaimOps ops) a [v] typeID) b [v] typeID
        = claimStep (runClaimOps ops) a [v] typeID := by
      generalize hS : claimStep (runClaimOps ops) a [v] typeID = S at hbnone hpick2
      simp [claimStep, hbnone, hpick2]
    refine ⟨h1, ?_, ?_⟩
    · rw [hstep2]; exact hbnone
    · rw [hstep2]; exact h1

/-- Concrete instantiation of the C1 theorem: from the empty history, agents
0 and 1 race for vehicle veh1; agent 0 wins it and agent 1 stays without a
vehicle. -/
theorem claim_registry_exclusive_witness :
    (claimStep (claimStep (runClaimOps []) 0 ["veh1"] (fun _ => none)) 1 ["veh1"]
      (fun _ => none)).owner 1 = none ∧
    (claimStep (claimStep (runClaimOps []) 0 ["veh1"] (fun _ => none)) 1 ["veh1"]
      (fun _ => none)).owner 0 = some "veh1" := by
  have h := (claim_registry_exclusive []).2 0 1 "veh1" (fun _ => none)
    (by decide) rfl rfl (by simp [runClaimOps, initClaimSystem]) (by simp)
  exact ⟨h.2.1, h.2.2⟩

/-- The length / max(0.1, maxSpeed) fallback used for both the ideal time
and the remaining-time fallback; any raising query contributes 0. -/
def fallbackTime (sim : SimState) (e : String) : ℚ :=
  match sim.length e, sim.maxSpeed e with
  | some L, some S => L / max (1 / 10 : ℚ) S
  | _, _ => 0

/-- getTraveltime with the length/maxSpeed fallback, as accumulated into
remaining_time by RerouteBehaviour.run. -/
def traveltimeOr (sim : SimState) (e : String) : ℚ :=
  match sim.traveltime e with
  | some t => t
  | none => fallbackTime sim e

/-- The scan over the remaining route edges in RerouteBehaviour.run,
yielding (remaining_time, ideal_time, path_blocked).  Every fully-closed
edge contributes an extra 1e6 penalty to remaining_time.  (The Python loop
accumulates left to right; over exact rationals the right fold used here
produces the same sums.) -/
def scanRemaining (sim : SimState) : List String → ℚ × ℚ × Bool
  | [] => (0, 0, false)
  | e :: es =>
      let rest := scanRemaining sim es
      let b := edgeClosedInline sim e
      ((if b then 1000000 else 0) + traveltimeOr sim e + rest.1,
        fallbackTime sim e + rest.2.1,
        b || rest.2.2)

/-- The thresholds configured in CarInfoAgent.setup:
reroute_threshold_factor and max_allowed_delay. -/
structure RerouteParams where
  factor : ℚ
  maxDelay : ℚ

/-- The reroute decision of RerouteBehaviour.run:
(ideal_time > 0 and remaining_time > ideal_time * factor) or
(remaining_time - ideal_time > max_delay) or path_blocked. -/
def rerouteTrigger (p : RerouteParams) (rem ideal : ℚ) (blocked : Bool) : Bool :=
  (decide (0 < ideal) && decide (ideal * p.factor < rem))
    || decide (p.maxDelay < rem - ideal) || blocked

/-- Per-vehicle simulation queries used by RerouteBehaviour.run. -/
structure VehSim where
  ids : List String
  route : String → List String
  roadID : String → String

/-- Python current_edge.startswith(":"). -/
def pyStartsWithColon (s : String) : Bool :=
  match s.toList with
  | [] => false
  | c :: _ => c = ':'

/-- The early-exit prefix of RerouteBehaviour.run: gives up when TraCI is
unloaded, no vehicle is controlled, the vehicle vanished, the route is
empty, or the vehicle is at its destination / on an internal edge; otherwise
yields (cid, route, dest_edge, current_edge, remaining_edges), where
remaining_edges is the route suffix from the first occurrence of the
current edge (or the whole route when the current edge is not on the
planned route, matching the except ValueError: route_index = 0). -/
def tickContext (sim : SimState) (veh : VehSim) (vid : Option String) :
    Option (String × List String × String × String × List String) :=
  if sim.loaded = false then none
  else
    match vid with
    | none => none
    | some cid =>
        if cid ∉ veh.ids then none
        else
          let route := veh.route cid
          if route = [] then none
          else
            let destEdge := route.getLastD ""
            let currentEdge := veh.roadID cid
            if currentEdge = destEdge ∨ currentEdge = ""
                ∨ pyStartsWithColon currentEdge = true then none
            else
              let remaining :=
                if currentEdge ∈ route then route.dropWhile (fun e => e != currentEdge)
                else route
              some (cid, route, destEdge, currentEdge, remaining)

/-- Whether one RerouteBehaviour tick reaches and passes the reroute
decision (the code then proceeds to the static route lookup). -/
def rerouteAttempted (sim : SimState) (veh : VehSim) (p : RerouteParams)
    (vid : Option String) : Bool :=
  match tickContext sim veh vid with
  | none => false
  | some ctx =>
      rerouteTrigger p (scanRemaining sim ctx.2.2.2.2).1
        (scanRemaining sim ctx.2.2.2.2).2.1 (scanRemaining sim ctx.2.2.2.2).2.2

/-- The candidate evaluation loop of RerouteBehaviour.run: walk a candidate
path, stopping at the first fully-closed edge (candidate_blocked), otherwise
accumulating the traveltime-with-fallback cost. -/
def candEval (sim : SimState) : List String → Bool × ℚ
  | [] => (false, 0)
  | e :: es =>
      if edgeClosedInline sim e then (true, 0)
      else
        let rest := candEval sim es
        (rest.1, traveltimeOr sim e + rest.2)

/-- The acceptance test inside the candidate loop: the suffix is not blocked
and (min_cost being inf at the start) its cost strictly beats the best so
far. -/
def pickGuard (sim : SimState) (cand : List String)
    (best : Option (List String × ℚ)) : Bool :=
  (!(candEval sim cand).1) && (match best with
    | none => true
    | some pr => decide ((candEval sim cand).2 < pr.2))

/-- The best-route selection of RerouteBehaviour.run over the candidate full
routes for the destination: keep, in order, the first unblocked suffix (from
the first occurrence of the current edge) of strictly least cost. -/
def pickBest (sim : SimState) (current : String) :
    List (List String) → Option (List String × ℚ) → Option (List String × ℚ)
  | [], best => best
  | fr :: frs, best =>
      if current ∈ fr then
        if pickGuard sim (fr.dropWhile (fun e => e != current)) best = true then
          pickBest sim current frs
            (some (fr.dropWhile (fun e => e != current),
              (candEval sim (fr.dropWhile (fun e => e != current))).2))
        else pickBest sim current frs best
      else pickBest sim current frs best

/-- The decision tail of RerouteBehaviour.run on the context computed by
tickContext: when the trigger fires, look up the static candidate routes for
the destination and apply the picked route when the selection produced a
(truthy, hence non-empty) route that either rescues a blocked path or beats
the remaining time by 10%.  The source's final test
`best_route != remaining_edges` compares a Python list (a slice of a route
loaded from JSON) against a tuple (a slice of the tuple
traci.vehicle.getRoute returns); a list never equals a tuple, so that test
is always true and contributes no condition here. -/
def rerouteDecide (sim : SimState) (p : RerouteParams)
    (routes_by_dest : List (String × List (List String))) :
    String × List String × String × String × List String → Option (List String)
  | (_, _, dest, cur, remaining) =>
      if rerouteTrigger p (scanRemaining sim remaining).1
          (scanRemaining sim remaining).2.1 (scanRemaining sim remaining).2.2 = false
      then none
      else
        match pickBest sim cur ((alookup routes_by_dest dest).getD []) none with
        | none => none
        | some pr =>
            if pr.1 = [] then none
            else if (scanRemaining sim remaining).2.2
                  || decide (pr.2 < (scanRemaining sim remaining).1 * (9 / 10))
            then some pr.1
            else none

/-- One full RerouteBehaviour tick: the route handed to setVehicleRoute, or
`none` when no reroute is applied. -/
def rerouteTick (sim : SimState) (veh : VehSim) (p : RerouteParams)
    (routes_by_dest : List (String × List (List String))) (vid : Option String) :
    Option (List String) :=
  match tickContext sim veh vid with
  | none => none
  | some ctx => rerouteDecide sim p routes_by_dest ctx

theorem scanRemaining_blocked_iff (sim : SimState) (l : List String) :
    (scanRemaining sim l).2.2 = true ↔ ∃ e ∈ l, edgeClosedInline sim e = true := by
  induction l with
  | nil => simp [scanRemaining]
  | cons x xs ih =>
      simp only [scanRemaining, Bool.or_eq_true, ih, List.mem_cons]
      constructor
      · rintro (hx | ⟨e, he, hb⟩)
        · exact ⟨x, Or.inl rfl, hx⟩
        · exact ⟨e, Or.inr he, hb⟩
      · rintro ⟨e, he | he, hb⟩
        · subst he
          exact Or.inl hb
        · exact Or.inr ⟨e, he, hb⟩

/-- C3 (amended): on a reroute-evaluation tick that reaches the decision
(TraCI loaded, vehicle controlled and active, non-trivial position), a
reroute attempt is triggered iff (ideal_time is positive and
remaining_time exceeds ideal_time times the factor) or remaining_time minus
ideal_time exceeds the maximum allowed delay or some remaining edge is
fully closed; in particular a fully closed remaining edge always triggers,
independently of the two timing thresholds.  (remaining_time here is the
code's accumulated estimate, which adds a 1e6 penalty per closed edge.) -/
theorem rerouteAttempted_characterization (sim : SimState) (veh : VehSim)
    (p : RerouteParams) (vid : Option String)
    (cid : String) (route : List String) (dest cur : String) (remaining : List String)
    (hctx : tickContext sim veh vid = some (cid, route, dest, cur, remaining)) :
    (rerouteAttempted sim veh p vid = true ↔
      ((0 < (scanRemaining sim remaining).2.1 ∧
          (scanRemaining sim remaining).2.1 * p.factor < (scanRemaining sim remaining).1)
        ∨ p.maxDelay < (scanRemaining sim remaining).1 - (scanRemaining sim remaining).2.1
        ∨ ∃ e ∈ remaining, edgeClosedInline sim e = true)) ∧
    ((∃ e ∈ remaining, edgeClosedInline sim e = true) →
      rerouteAttempted sim veh p vid = true) := by
  have hmain : rerouteAttempted sim veh p vid = true ↔
      ((0 < (scanRemaining sim remaining).2.1 ∧
          (scanRemaining sim remaining).2.1 * p.factor < (scanRemaining sim remaining).1)
        ∨ p.maxDelay < (scanRemaining sim remaining).1 - (scanRemaining sim remaining).2.1
        ∨ ∃ e ∈ remaining, edgeClosedInline sim e = true) := by
    unfold rerouteAttempted
    rw [hctx]
    simp only [rerouteTrigger, Bool.or_eq_true, Bool.and_eq_true, decide_eq_true_eq,
      scanRemaining_blocked_iff, or_assoc]
  exact ⟨hmain, fun h => hmain.mpr (Or.inr (Or.inr h))⟩

/-- Fixed inputs for the C3 counterexample: the simulation answers
getTraveltime with 5 seconds but raises on getLength/getMaxSpeed, so
ideal_time accumulates to 0 while remaining_time is positive. -/
def c3sim : SimState :=
  ⟨true, fun _ => some [[]], fun _ => some 5, fun _ => none, fun _ => none⟩

def c3veh : VehSim :=
  ⟨["v1"], fun _ => ["C", "E"], fun _ => "C"⟩

/-- The thresholds from CarInfoAgent.setup: factor 1.5, max delay 20. -/
def carInfoParams : RerouteParams := ⟨3 / 2, 20⟩

/-- C3 counterexample: on this tick remaining_time = 10 > 0 =
ideal_time * reroute_factor, so the claimed trigger condition holds, and no
remaining edge is blocked and the absolute delay stays below the 20 s bound
— yet the code does not trigger a reroute attempt, because its first
disjunct additionally requires ideal_time > 0. -/
theorem rerouteAttempted_ideal_zero_cex :
    tickContext c3sim c3veh (some "v1") = some ("v1", ["C", "E"], "E", "C", ["C", "E"]) ∧
    scanRemaining c3sim ["C", "E"] = (10, 0, false) ∧
    (scanRemaining c3sim ["C", "E"]).2.1 * carInfoParams.factor
      < (scanRemaining c3sim ["C", "E"]).1 ∧
    rerouteAttempted c3sim c3veh carInfoParams (some "v1") = false := by
  refine ⟨?_, ?_, ?_, ?_⟩
  · decide
  · norm_num [scanRemaining, edgeClosedInline, allLanesClosed, traveltimeOr,
      fallbackTime, c3sim]
  · norm_num [scanRemaining, edgeClosedInline, allLanesClosed, traveltimeOr,
      fallbackTime, c3sim, carInfoParams]
  · have hctx : tickContext c3sim c3veh (some "v1")
        = some ("v1", ["C", "E"], "E", "C", ["C", "E"]) := by decide
    unfold rerouteAttempted
    rw [hctx]
    norm_num [rerouteTrigger, scanRemaining, edgeClosedInline, allLanesClosed,
      traveltimeOr, fallbackTime, c3sim, carInfoParams]

/-- Concrete instantiation of the C3 amended theorem: a closed remaining
edge alone makes the tick trigger a reroute attempt. -/
theorem rerouteAttempted_characterization_witness :
    rerouteAttempted
      ⟨true, fun e => if e = "E" then some [["passenger"]] else some [[]],
        fun _ => some 5, fun _ => none, fun _ => none⟩
      c3veh carInfoParams (some "v1") = true := by
  refine (rerouteAttempted_characterization
    ⟨true, fun e => if e = "E" then some [["passenger"]] else some [[]],
      fun _ => some 5, fun _ => none, fun _ => none⟩
    c3veh carInfoParams (some "v1") "v1" ["C", "E"] "E" "C" ["C", "E"]
    (by decide)).2 ⟨"E", by decide, by decide⟩

theorem candEval_false_open (sim : SimState) (l : List String)
    (h : (candEval sim l).1 = false) : ∀ e ∈ l, edgeClosedInline sim e = false := by
  induction l with
  | nil => intro e he; simp at he
  | cons x xs ih =>
      intro e he
      by_cases hx : edgeClosedInline sim x = true
      · simp [candEval, hx] at h
      · rcases List.mem_cons.mp he with he | he
        · subst he
          exact Bool.not_eq_true _ ▸ hx
        · apply ih _ e he
          simp only [candEval, Bool.not_eq_true] at hx
          simp [candEval, hx] at h
          exact h

theorem dropWhile_bne_head (l : List String) (x : String) (h : x ∈ l) :
    (l.dropWhile (fun e => e != x)).head? = some x := by
  induction l with
  | nil => simp at h
  | cons y ys ih =>
      by_cases hyx : y = x
      · subst hyx
        simp [List.dropWhile_cons]
      · have hys : x ∈ ys := by
          rcases List.mem_cons.mp h with h1 | h1
          · exact absurd h1.symm hyx
          · exact h1
        simpa [List.dropWhile_cons, bne_iff_ne, hyx] using ih hys


theorem pickBest_acc_le (sim : SimState) (cur : String) (frs : List (List String)) :
    ∀ (pr : List String × ℚ), ∃ pr',
      pickBest sim cur frs (some pr) = some pr' ∧ pr'.2 ≤ pr.2 := by
  induction frs with
  | nil => intro pr; exact ⟨pr, rfl, le_refl _⟩
  | cons fr frs ih =>
      intro pr
      by_cases hcur : cur ∈ fr
      · by_cases hguard : pickGuard sim (fr.dropWhile (fun e => e != cur)) (some pr) = true
        · rcases ih (fr.dropWhile (fun e => e != cur),
              (candEval sim (fr.dropWhile (fun e => e != cur))).2) with ⟨pr', h1, h2⟩
          refine ⟨pr', ?_, ?_⟩
          · simp only [pickBest]
            rw [if_pos hcur, if_pos hguard]
            exact h1
          · have hg := hguard
            simp [pickGuard] at hg
            exact le_of_lt (lt_of_le_of_lt h2 hg.2)
        · rcases ih pr with ⟨pr', h1, h2⟩
          refine ⟨pr', ?_, h2⟩
          simp only [pickBest]
          rw [if_pos hcur, if_neg hguard]
          exact h1
      · rcases ih pr with ⟨pr', h1, h2⟩
        refine ⟨pr', ?_, h2⟩
        simp only [pickBest]
        rw [if_neg hcur]
        exact h1

theorem pickBest_origin (sim : SimState) (cur : String) (frs : List (List String)) :
    ∀ (best : Option (List String × ℚ)) (pr : List String × ℚ),
      pickBest sim cur frs best = some pr →
      (∃ fr ∈ frs, cur ∈ fr ∧ pr.1 = fr.dropWhile (fun e => e != cur) ∧
        candEval sim pr.1 = (false, pr.2)) ∨ best = some pr := by
  induction frs with
  | nil => intro best pr h; exact Or.inr h
  | cons fr frs ih =>
      intro best pr h
      simp only [pickBest] at h
      by_cases hcur : cur ∈ fr
      · rw [if_pos hcur] at h
        by_cases hguard : pickGuard sim (fr.dropWhile (fun e => e != cur)) best = true
        · rw [if_pos hguard] at h
          rcases ih _ pr h with hl | hr
          · rcases hl with ⟨fr', h1, h2, h3, h4⟩
            exact Or.inl ⟨fr', List.mem_cons_of_mem _ h1, h2, h3, h4⟩
          · left
            injection hr with hr
            have hg := hguard
            simp only [pickGuard, Bool.and_eq_true, Bool.not_eq_true'] at hg
            refine ⟨fr, List.mem_cons_self _ _, hcur, ?_, ?_⟩
            · rw [← hr]
            · rw [← hr]
              have hpair : candEval sim (fr.dropWhile (fun e => e != cur))
                  = (false, (candEval sim (fr.dropWhile (fun e => e != cur))).2) := by
                rw [← hg.1]
              exact hpair
        · rw [if_neg hguard] at h
          rcases ih _ pr h with hl | hr
          · rcases hl with ⟨fr', h1, h2, h3, h4⟩
            exact Or.inl ⟨fr', List.mem_cons_of_mem _ h1, h2, h3, h4⟩
          · exact Or.inr hr
      · rw [if_neg hcur] at h
        rcases ih _ pr h with hl | hr
        · rcases hl with ⟨fr', h1, h2, h3, h4⟩
          exact Or.inl ⟨fr', List.mem_cons_of_mem _ h1, h2, h3, h4⟩
        · exact Or.inr hr

theorem pickBest_min (sim : SimState) (cur : String) (frs : List (List String)) :
    ∀ (best : Option (List String × ℚ)) (pr : List String × ℚ),
      pickBest sim cur frs best = some pr →
      ∀ fr ∈ frs, cur ∈ fr →
        (candEval sim (fr.dropWhile (fun e => e != cur))).1 = false →
        pr.2 ≤ (candEval sim (fr.dropWhile (fun e => e != cur))).2 := by
  induction frs with
  | nil => intro best pr _ fr hfr; simp at hfr
  | cons fr0 frs ih =>
      intro best pr h fr hfr hcurfr hopen
      simp only [pickBest] at h
      by_cases hcur : cur ∈ fr0
      · rw [if_pos hcur] at h
        by_cases hguard : pickGuard sim (fr0.dropWhile (fun e => e != cur)) best = true
        · rw [if_pos hguard] at h
          rcases List.mem_cons.mp hfr with hfr1 | hfr1
          · subst hfr1
            rcases pickBest_acc_le sim cur frs
              (fr.dropWhile (fun e => e != cur),
                (candEval sim (fr.dropWhile (fun e => e != cur))).2) with ⟨pr', h1, h2⟩
            rw [h] at h1
            injection h1 with h1
            rw [← h1] at h2
            exact h2
          · exact ih _ pr h fr hfr1 hcurfr hopen
        · rw [if_neg hguard] at h
          rcases List.mem_cons.mp hfr with hfr1 | hfr1
          · subst hfr1
            rcases hbest : best with _ | prb
            · subst hbest
              exfalso
              apply hguard
              simp [pickGuard, hopen]
            · subst hbest
              have hnlt : ¬ ((candEval sim (fr.dropWhile (fun e => e != cur))).2 < prb.2) := by
                intro hlt
                apply hguard
                simp [pickGuard, hopen, hlt]
              rcases pickBest_acc_le sim cur frs prb with ⟨pr', h1, h2⟩
              rw [h] at h1
              injection h1 with h1
              rw [← h1] at h2
              exact le_trans h2 (not_lt.mp hnlt)
          · exact ih _ pr h fr hfr1 hcurfr hopen
      · rw [if_neg hcur] at h
        rcases List.mem_cons.mp hfr with hfr1 | hfr1
        · subst hfr1
          exact absurd hcurfr hcur
        · exact ih _ pr h fr hfr1 hcurfr hopen

/-- When every travel time and lane length the simulation reports is
non-negative (as SUMO guarantees), the per-edge traveltime-with-fallback
cost is non-negative: the fallback divides a non-negative length by a
speed clamped to at least 0.1, and every raising query contributes 0. -/
theorem traveltimeOr_nonneg (sim : SimState)
    (htt : ∀ e t, sim.traveltime e = some t → 0 ≤ t)
    (hlen : ∀ e L, sim.length e = some L → 0 ≤ L) (e : String) :
    0 ≤ traveltimeOr sim e := by
  rcases ht : sim.traveltime e with _ | t
  · rcases hL : sim.length e with _ | L
    · simp [traveltimeOr, fallbackTime, ht, hL]
    · rcases hS : sim.maxSpeed e with _ | S
      · simp [traveltimeOr, fallbackTime, ht, hL, hS]
      · have h0 : (0 : ℚ) ≤ max (1 / 10 : ℚ) S :=
          le_trans (by norm_num) (le_max_left _ _)
        have hdiv := div_nonneg (hlen e L hL) h0
        simpa [traveltimeOr, fallbackTime, ht, hL, hS] using hdiv
  · have := htt e t ht
    simpa [traveltimeOr, ht] using this

/-- With non-negative per-edge costs the accumulated cost of a candidate
suffix is non-negative. -/
theorem candEval_snd_nonneg (sim : SimState)
    (htt : ∀ e t, sim.traveltime e = some t → 0 ≤ t)
    (hlen : ∀ e L, sim.length e = some L → 0 ≤ L) (l : List String) :
    0 ≤ (candEval sim l).2 := by
  induction l with
  | nil => simp [candEval]
  | cons e es ih =>
      by_cases hb : edgeClosedInline sim e = true
      · simp [candEval, hb]
      · rw [Bool.not_eq_true] at hb
        simp only [candEval, hb, Bool.false_eq_true, if_false]
        exact add_nonneg (traveltimeOr_nonneg sim htt hlen e) ih

/-- On a fully open edge list the remaining-time accumulation and the
candidate-cost accumulation agree: no 1e6 penalty fires and both sum the
same per-edge traveltime-with-fallback costs. -/
theorem scanRemaining_fst_eq_candEval (sim : SimState) (l : List String)
    (h : ∀ e ∈ l, edgeClosedInline sim e = false) :
    (scanRemaining sim l).1 = (candEval sim l).2 := by
  induction l with
  | nil => simp [scanRemaining, candEval]
  | cons e es ih =>
      have he : edgeClosedInline sim e = false := h e (List.mem_cons_self e es)
      have hes : ∀ x ∈ es, edgeClosedInline sim x = false :=
        fun x hx => h x (List.mem_cons_of_mem e hx)
      simp [scanRemaining, candEval, he, ih hes]

/-- A tick whose early-exit prefix produced a context reduces to the
decision tail on that context. -/
theorem rerouteTick_eq_of_ctx (sim : SimState) (veh : VehSim) (p : RerouteParams)
    (db : List (String × List (List String))) (vid : Option String)
    (ctx : String × List String × String × String × List String)
    (hctx : tickContext sim veh vid = some ctx) :
    rerouteTick sim veh p db vid = rerouteDecide sim p db ctx := by
  unfold rerouteTick
  rw [hctx]

/-- C4: whenever a RerouteBehaviour tick applies a replacement route from
the precomputed route database, the applied route starts exactly at the
vehicle's current edge, contains no fully-closed edge, has minimum cost
(under the code's traveltime-with-fallback cost) among the unblocked
candidate suffixes for the destination that start at the current edge, and
is non-empty and different from the vehicle's currently remaining route.
The source's `best_route != remaining_edges` test compares a list against
the tuple sliced from traci.vehicle.getRoute, so it is always true and
enforces nothing; the difference instead holds semantically: applying
requires a blocked remaining path (while the applied route is fully open)
or a strict 10% cost improvement, impossible for an identical edge list
when, as with every SUMO network, the reported travel times and lane
lengths are non-negative. -/
theorem rerouteTick_applied_spec (sim : SimState) (veh : VehSim) (p : RerouteParams)
    (db : List (String × List (List String))) (vid : Option String) (br : List String)
    (htt : ∀ e t, sim.traveltime e = some t → 0 ≤ t)
    (hlen : ∀ e L, sim.length e = some L → 0 ≤ L)
    (h : rerouteTick sim veh p db vid = some br) :
    ∃ cid route dest cur remaining,
      tickContext sim veh vid = some (cid, route, dest, cur, remaining) ∧
      br.head? = some cur ∧
      br ≠ [] ∧
      br ≠ remaining ∧
      (∀ e ∈ br, edgeClosedInline sim e = false) ∧
      (∀ fr ∈ (alookup db dest).getD [], cur ∈ fr →
        (candEval sim (fr.dropWhile (fun e => e != cur))).1 = false →
        (candEval sim br).2 ≤ (candEval sim (fr.dropWhile (fun e => e != cur))).2) := by
  rcases hctx : tickContext sim veh vid with _ | ctx
  · rw [rerouteTick, hctx] at h
    simp at h
  · obtain ⟨cid, route, dest, cur, remaining⟩ := ctx
    rw [rerouteTick_eq_of_ctx sim veh p db vid _ hctx] at h
    refine ⟨cid, route, dest, cur, remaining, rfl, ?_⟩
    simp only [rerouteDecide] at h
    by_cases htrig : rerouteTrigger p (scanRemaining sim remaining).1
        (scanRemaining sim remaining).2.1 (scanRemaining sim remaining).2.2 = false
    · rw [if_pos htrig] at h
      cases h
    · rw [if_neg htrig] at h
      rcases hpick : pickBest sim cur ((alookup db dest).getD []) none with _ | pr
      · simp only [hpick] at h
        simp at h
      · simp only [hpick] at h
        by_cases hemp : pr.1 = []
        · rw [if_pos hemp] at h
          cases h
        · rw [if_neg hemp] at h
          by_cases hg : ((scanRemaining sim remaining).2.2
                || decide (pr.2 < (scanRemaining sim remaining).1 * (9 / 10))) = true
          · rw [if_pos hg] at h
            injection h with hbr
            rcases pickBest_origin sim cur ((alookup db dest).getD []) none pr hpick
              with hl | hr
            · rcases hl with ⟨fr, hfr, hcurfr, heq, hce⟩
              have hfst : (candEval sim br).1 = false := by
                rw [← hbr, hce]
              have hsnd : (candEval sim br).2 = pr.2 := by
                rw [← hbr, hce]
              have hopen : ∀ e ∈ br, edgeClosedInline sim e = false :=
                candEval_false_open sim br hfst
              have hdiff : br ≠ remaining := by
                intro heq2
                have hg2 : (scanRemaining sim remaining).2.2 = true
                    ∨ pr.2 < (scanRemaining sim remaining).1 * (9 / 10) := by
                  simpa using hg
                rcases hg2 with hbl | hlt
                · rcases (scanRemaining_blocked_iff sim remaining).mp hbl
                    with ⟨e, hee, hbe⟩
                  have hoe : edgeClosedInline sim e = false :=
                    hopen e (heq2.symm ▸ hee)
                  rw [hoe] at hbe
                  cases hbe
                · have hropen : ∀ e ∈ remaining, edgeClosedInline sim e = false :=
                    heq2 ▸ hopen
                  have hreq : (scanRemaining sim remaining).1
                      = (candEval sim remaining).2 :=
                    scanRemaining_fst_eq_candEval sim remaining hropen
                  have hceq : (candEval sim remaining).2 = pr.2 := by
                    rw [← heq2, hsnd]
                  have hnn : 0 ≤ pr.2 := by
                    rw [← hsnd]
                    exact candEval_snd_nonneg sim htt hlen br
                  rw [hreq, hceq] at hlt
                  nlinarith
              refine ⟨?_, ?_, hdiff, ?_, ?_⟩
              · rw [← hbr, heq]
                exact dropWhile_bne_head fr cur hcurfr
              · rw [← hbr]
                exact hemp
              · exact hopen
              · intro fr' hfr' hcurfr' hopen'
                have hmin := pickBest_min sim cur ((alookup db dest).getD []) none pr
                  hpick fr' hfr' hcurfr' hopen'
                rw [hsnd]
                exact hmin
            · cases hr
          · rw [if_neg hg] at h
            cases h

/-- Fixed inputs for the C4 witness: edge B (on the vehicle's remaining
route A-B-C) is fully closed, every other edge open with traveltime 1, and
the static database knows the alternative full route A-D-C to the
destination C. -/
def c4sim : SimState :=
  ⟨true, fun e => if e = "B" then some [["passenger"]] else some [[]],
    fun _ => some 1, fun _ => none, fun _ => none⟩

def c4veh : VehSim := ⟨["v1"], fun _ => ["A", "B", "C"], fun _ => "A"⟩

def c4db : List (String × List (List String)) := [("C", [["A", "D", "C"]])]

/-- Concrete instantiation of the C4 theorem: the tick applies route A-D-C,
which starts at the current edge A, avoids the closed edge B, and differs
from the remaining route A-B-C. -/
theorem rerouteTick_applied_spec_witness :
    (["A", "D", "C"] : List String).head? = some "A" ∧
    (["A", "D", "C"] : List String) ≠ ["A", "B", "C"] ∧
    edgeClosedInline c4sim "D" = false := by
  have h := rerouteTick_applied_spec c4sim c4veh carInfoParams c4db (some "v1")
    ["A", "D", "C"]
    (by
      intro e t ht
      simp only [c4sim, Option.some.injEq] at ht
      subst ht
      norm_num)
    (by
      intro e L hL
      simp [c4sim] at hL)
    (by
      rw [rerouteTick_eq_of_ctx c4sim c4veh carInfoParams c4db (some "v1")
        ("v1", ["A", "B", "C"], "C", "A", ["A", "B", "C"]) (by decide)]
      simp +decide [rerouteDecide, rerouteTrigger, scanRemaining, edgeClosedInline,
        allLanesClosed, traveltimeOr, fallbackTime, pickBest, pickGuard, candEval,
        alookup, c4sim, c4db, carInfoParams, List.dropWhile_cons])
  obtain ⟨cid, route, dest, cur, remaining, hctx, hhead, _, hdiff, hopen, _⟩ := h
  have hctx2 : tickContext c4sim c4veh (some "v1")
      = some ("v1", ["A", "B", "C"], "C", "A", ["A", "B", "C"]) := by decide
  rw [hctx2] at hctx
  injection hctx with hctx
  simp only [Prod.mk.injEq] at hctx
  obtain ⟨-, -, -, hcur, hrem⟩ := hctx
  refine ⟨?_, ?_, ?_⟩
  · rw [← hcur] at hhead
    exact hhead
  · rw [← hrem] at hdiff
    exact hdiff
  · exact hopen "D" (by decide)

theorem alookup_mem {β : Type} (l : List (String × β)) (x : String) (v : β)
    (h : alookup l x = some v) : (x, v) ∈ l := by
  induction l with
  | nil => simp [alookup] at h
  | cons p rest ih =>
      by_cases hx : x = p.1
      · simp only [alookup, if_pos hx, Option.some.injEq] at h
        subst hx
        subst h
        simp
      · simp only [alookup, if_neg hx] at h
        exact List.mem_cons_of_mem _ (ih h)

theorem alookup_isSome_iff {β : Type} (l : List (String × β)) (x : String) :
    (alookup l x).isSome ↔ x ∈ l.map Prod.fst := by
  induction l with
  | nil => simp [alookup]
  | cons p rest ih =>
      by_cases hx : x = p.1
      · simp [alookup, hx]
      · simp [alookup, hx, ih]

theorem aupsert_mem {β : Type} (l : List (String × β)) (k : String) (v : β)
    (p : String × β) (h : p ∈ aupsert l k v) : p = (k, v) ∨ p ∈ l := by
  induction l with
  | nil => simpa [aupsert] using h
  | cons q rest ih =>
      by_cases hk : k = q.1
      · simp only [aupsert, if_pos hk] at h
        rcases List.mem_cons.mp h with h1 | h1
        · exact Or.inl h1
        · exact Or.inr (List.mem_cons_of_mem _ h1)
      · simp only [aupsert, if_neg hk] at h
        rcases List.mem_cons.mp h with h1 | h1
        · exact Or.inr (h1 ▸ List.mem_cons_self _ _)
        · rcases ih h1 with h2 | h2
          · exact Or.inl h2
          · exact Or.inr (List.mem_cons_of_mem _ h2)


theorem aupsert_nodup {β : Type} (l : List (String × β)) (k : String) (v : β)
    (h : (l.map Prod.fst).Nodup) : ((aupsert l k v).map Prod.fst).Nodup := by
  rw [aupsert_keys]
  by_cases hk : k ∈ l.map Prod.fst
  · simpa [hk] using h
  · rw [if_neg hk]
    refine List.Nodup.append h (List.nodup_singleton k) ?_
    intro x hx hxk
    simp only [List.mem_singleton] at hxk
    subst hxk
    exact hk hx

/-- The static road graph built by RouteFinder._parse_net: edge lengths (the
first lane's length, as a rational standing for the parsed float) and the
adjacency lists. -/
structure RouteFinder where
  edges : List (String × ℚ)
  graph : List (String × List String)

/-- One edge element of the .net.xml topology document: its id, whether its
function attribute is internal, and the length of its first lane child (none
when it has no lane). -/
structure NetEdgeDecl where
  id : String
  internal : Bool
  laneLength : Option ℚ

/-- One connection element of the topology document. -/
structure NetConnDecl where
  src : String
  dst : String

/-- The edge pass of _parse_net: skip internal edges and edges without a
lane child; record the length and initialize the adjacency list (a repeated
id overwrites both, as the Python dict assignments do). -/
def parseEdgesStep (acc : List (String × ℚ) × List (String × List String))
    (d : NetEdgeDecl) : List (String × ℚ) × List (String × List String) :=
  if d.internal then acc
  else
    match d.laneLength with
    | none => acc
    | some len => (aupsert acc.1 d.id len, aupsert acc.2 d.id [])

/-- The connection pass of _parse_net: when both endpoints are known edges,
append the target to the source's adjacency list unless already present.
(In the Python code the adjacency entry always exists whenever the length
entry does, so the defensive none branch below is unreachable.) -/
def addConn (acc : List (String × ℚ) × List (String × List String))
    (c : NetConnDecl) : List (String × ℚ) × List (String × List String) :=
  if (alookup acc.1 c.src).isSome ∧ (alookup acc.1 c.dst).isSome then
    match alookup acc.2 c.src with
    | none => acc
    | some adj =>
        (acc.1, aupsert acc.2 c.src (if c.dst ∈ adj then adj else adj ++ [c.dst]))
  else acc

/-- RouteFinder._parse_net over the abstracted topology document. -/
def parse_net (es : List NetEdgeDecl) (cs : List NetConnDecl) : RouteFinder :=
  let p := es.foldl parseEdgesStep ([], [])
  let q := cs.foldl addConn p
  ⟨q.1, q.2⟩

/-- Well-formedness that _parse_net guarantees: unique edge ids, the graph
keyed exactly like the length table, and adjacency targets that are known
edges. -/
def WF (rf : RouteFinder) : Prop :=
  (rf.edges.map Prod.fst).Nodup ∧
  rf.graph.map Prod.fst = rf.edges.map Prod.fst ∧
  ∀ p ∈ rf.graph, ∀ v ∈ p.2, v ∈ rf.edges.map Prod.fst

instance (rf : RouteFinder) : Decidable (WF rf) := by
  unfold WF
  infer_instance

theorem parseEdgesStep_wf (acc : List (String × ℚ) × List (String × List String))
    (d : NetEdgeDecl) (h : WF ⟨acc.1, acc.2⟩) :
    WF ⟨(parseEdgesStep acc d).1, (parseEdgesStep acc d).2⟩ := by
  rcases h with ⟨hnd, hkeys, hadj⟩
  by_cases hint : d.internal = true
  · have heq : parseEdgesStep acc d = acc := by
      unfold parseEdgesStep
      rw [if_pos hint]
    rw [heq]
    exact ⟨hnd, hkeys, hadj⟩
  · rcases hlen : d.laneLength with _ | len
    · have heq : parseEdgesStep acc d = acc := by
        unfold parseEdgesStep
        rw [if_neg hint, hlen]
      rw [heq]
      exact ⟨hnd, hkeys, hadj⟩
    · have heq : parseEdgesStep acc d = (aupsert acc.1 d.id len, aupsert acc.2 d.id []) := by
        unfold parseEdgesStep
        rw [if_neg hint, hlen]
      rw [heq]
      refine ⟨aupsert_nodup _ _ _ hnd, ?_, ?_⟩
      · show (aupsert acc.2 d.id []).map Prod.fst = (aupsert acc.1 d.id len).map Prod.fst
        rw [aupsert_keys, aupsert_keys, hkeys]
      · intro p hp v hv
        show v ∈ (aupsert acc.1 d.id len).map Prod.fst
        rcases aupsert_mem _ _ _ _ hp with h1 | h1
        · subst h1
          simp at hv
        · have hin := hadj p h1 v hv
          rw [aupsert_keys]
          by_cases hmem : d.id ∈ acc.1.map Prod.fst
          · simpa [hmem] using hin
          · rw [if_neg hmem]
            exact List.mem_append_left _ hin

theorem addConn_wf (acc : List (String × ℚ) × List (String × List String))
    (c : NetConnDecl) (h : WF ⟨acc.1, acc.2⟩) :
    WF ⟨(addConn acc c).1, (addConn acc c).2⟩ := by
  rcases h with ⟨hnd, hkeys, hadj⟩
  by_cases hcond : (alookup acc.1 c.src).isSome = true ∧ (alookup acc.1 c.dst).isSome = true
  · rcases hsrc : alookup acc.2 c.src with _ | adj
    · have heq : addConn acc c = acc := by
        unfold addConn
        rw [if_pos hcond, hsrc]
      rw [heq]
      exact ⟨hnd, hkeys, hadj⟩
    · have heq : addConn acc c
          = (acc.1, aupsert acc.2 c.src (if c.dst ∈ adj then adj else adj ++ [c.dst])) := by
        unfold addConn
        rw [if_pos hcond, hsrc]
      rw [heq]
      have hsrckey : c.src ∈ acc.2.map Prod.fst :=
        (alookup_isSome_iff _ _).mp (by rw [hsrc]; rfl)
      refine ⟨hnd, ?_, ?_⟩
      · show (aupsert acc.2 c.src _).map Prod.fst = acc.1.map Prod.fst
        rw [aupsert_keys, if_pos hsrckey]
        exact hkeys
      · intro p hp v hv
        show v ∈ acc.1.map Prod.fst
        rcases aupsert_mem _ _ _ _ hp with h1 | h1
        · subst h1
          simp only at hv
          by_cases hdup : c.dst ∈ adj
          · rw [if_pos hdup] at hv
            exact hadj _ (alookup_mem _ _ _ hsrc) v hv
          · rw [if_neg hdup] at hv
            rcases List.mem_append.mp hv with h2 | h2
            · exact hadj _ (alookup_mem _ _ _ hsrc) v h2
            · have hv2 : v = c.dst := by simpa using h2
              subst hv2
              exact (alookup_isSome_iff _ _).mp hcond.2
        · exact hadj p h1 v hv
  · have heq : addConn acc c = acc := by
      unfold addConn
      rw [if_neg hcond]
    rw [heq]
    exact ⟨hnd, hkeys, hadj⟩

/-- The parser _parse_net always produces a well-formed RouteFinder. -/
theorem parse_net_wf (es : List NetEdgeDecl) (cs : List NetConnDecl) :
    WF (parse_net es cs) := by
  have base : WF ⟨([] : List (String × ℚ)), ([] : List (String × List String))⟩ := by
    refine ⟨List.nodup_nil, rfl, ?_⟩
    intro p hp
    simp at hp
  have hedges : ∀ (l : List NetEdgeDecl) acc, WF ⟨acc.1, acc.2⟩ →
      WF ⟨(l.foldl parseEdgesStep acc).1, (l.foldl parseEdgesStep acc).2⟩ := by
    intro l
    induction l with
    | nil => intro acc h; exact h
    | cons d rest ih =>
        intro acc h
        exact ih _ (parseEdgesStep_wf acc d h)
  have hconns : ∀ (l : List NetConnDecl) acc, WF ⟨acc.1, acc.2⟩ →
      WF ⟨(l.foldl addConn acc).1, (l.foldl addConn acc).2⟩ := by
    intro l
    induction l with
    | nil => intro acc h; exact h
    | cons c rest ih =>
        intro acc h
        exact ih _ (addConn_wf acc c h)
  exact hconns cs _ (hedges es ([], []) base)

/-- State of the Dijkstra main loop in RouteFinder.find_route: the heap (as
a list kept sorted by the lexicographic tuple order heapq pops by), the
tentative cost and parent dictionaries, and the visited set (a list in
insertion order). -/
structure DijkState where
  pq : List (ℚ × String)
  costs : List (String × ℚ)
  parents : List (String × Option String)
  visited : List String

/-- heapq.heappush on the sorted-list model: insert before the first
strictly greater tuple. -/
def pqInsert (x : ℚ × String) : List (ℚ × String) → List (ℚ × String)
  | [] => [x]
  | y :: rest =>
      if x.1 < y.1 ∨ (x.1 = y.1 ∧ x.2 < y.2) then x :: y :: rest
      else y :: pqInsert x rest

/-- One relaxation of the inner for-loop of find_route: skip a blocked
neighbour when check_closures is set; otherwise compute
new_cost = current_cost + edges[u] and, on strict improvement over the
recorded cost (infinity when absent), push the neighbour and record cost and
parent.  `none` models the KeyError the Python code would raise if the
weight self.edges[u] were missing. -/
def relaxNeighbor (rf : RouteFinder) (sim : SimState) (check : Bool) (c : ℚ)
    (u : String) (st : DijkState) (v : String) : Option DijkState :=
  if check = true ∧ is_edge_blocked sim v = true then some st
  else
    match alookup rf.edges u with
    | none => none
    | some wu =>
        if (match alookup st.costs v with
            | none => true
            | some cv => decide (c + wu < cv)) = true then
          some { pq := pqInsert (c + wu, v) st.pq,
                 costs := aupsert st.costs v (c + wu),
                 parents := aupsert st.parents v (some u),
                 visited := st.visited }
        else some st

def relaxAll (rf : RouteFinder) (sim : SimState) (check : Bool) (c : ℚ) (u : String) :
    List String → DijkState → Option DijkState
  | [], st => some st
  | v :: vs, st =>
      match relaxNeighbor rf sim check c u st v with
      | none => none
      | some st' => relaxAll rf sim check c u vs st'

/-- The while-loop of find_route, with explicit fuel: pop the least tuple,
break on the destination, skip visited nodes, otherwise mark visited and
relax every recorded neighbour.  `none` stands for fuel exhaustion or a
propagated KeyError; both are shown impossible under well-formedness. -/
def dijkstraLoop (rf : RouteFinder) (sim : SimState) (check : Bool) (endE : String) :
    ℕ → DijkState → Option DijkState
  | 0, _ => none
  | fuel + 1, st =>
      match st.pq with
      | [] => some st
      | (c, u) :: rest =>
          if u = endE then some st
          else if u ∈ st.visited then
            dijkstraLoop rf sim check endE fuel ⟨rest, st.costs, st.parents, st.visited⟩
          else
            match alookup rf.graph u with
            | none =>
                dijkstraLoop rf sim check endE fuel
                  ⟨rest, st.costs, st.parents, st.visited ++ [u]⟩
            | some nbrs =>
                match relaxAll rf sim check c u nbrs
                    ⟨rest, st.costs, st.parents, st.visited ++ [u]⟩ with
                | none => none
                | some st2 => dijkstraLoop rf sim check endE fuel st2

/-- The path-reconstruction while-loop of find_route: follow the parent
pointers, appending each node; the loop also stops, without appending, at
the empty string (Python's `while curr` truthiness check).  `none` stands
for fuel exhaustion or a missing parents entry. -/
def reconstruct (parents : List (String × Option String)) :
    ℕ → String → Option (List String)
  | 0, _ => none
  | n + 1, curr =>
      if curr = "" then some []
      else
        match alookup parents curr with
        | none => none
        | some none => some [curr]
        | some (some p) =>
            match reconstruct parents n p with
            | none => none
            | some path => some (curr :: path)

/-- Fuel that always suffices for the main loop: every node is expanded at
most once, so at most one pop per initial entry plus one per adjacency-list
slot happens. -/
def dijkstraFuel (rf : RouteFinder) : ℕ :=
  (rf.graph.map (fun p => p.2.length)).sum + 2

def initState (startE : String) : DijkState :=
  ⟨[(0, startE)], [(startE, 0)], [(startE, none)], []⟩

/-- RouteFinder.find_route: empty list when either endpoint is unknown or
when the destination never acquired a parent; otherwise the reversed
parent-chain from the destination.  `some` is a normal return; `none` marks
the two spots where the Python loop could raise or spin (shown unreachable
under well-formedness and positive lengths). -/
def find_route (rf : RouteFinder) (sim : SimState) (startE endE : String)
    (check : Bool) : Option (List String) :=
  if (alookup rf.edges startE).isNone ∨ (alookup rf.edges endE).isNone then some []
  else
    match dijkstraLoop rf sim check endE (dijkstraFuel rf) (initState startE) with
    | none => none
    | some st =>
        match alookup st.parents endE with
        | none => some []
        | some _ =>
            match reconstruct st.parents (st.parents.length + 1) endE with
            | none => none
            | some path => some path.reverse

/-- Reachability through the parsed adjacency graph. -/
def Reach (rf : RouteFinder) (a b : String) : Prop :=
  Relation.ReflTransGen (fun x y => ∃ l, alookup rf.graph x = some l ∧ y ∈ l) a b

/-- The loop invariant tying parents, costs, heap and visited set together.
All facts are stated about the dictionaries as association lists with unique
keys. -/
structure DijkInv (rf : RouteFinder) (sim : SimState) (check : Bool)
    (startE : String) (st : DijkState) : Prop where
  rootOnly : ∀ v pv, alookup st.parents v = some pv → pv = none → v = startE
  adj : ∀ v u, alookup st.parents v = some (some u) →
    (check = true → is_edge_blocked sim v = false) ∧
      ∃ l, alookup rf.graph u = some l ∧ v ∈ l
  costRel : ∀ v u, alookup st.parents v = some (some u) →
    ∃ cu cv wu, alookup st.costs u = some cu ∧ alookup st.costs v = some cv ∧
      alookup rf.edges u = some wu ∧ cu + wu ≤ cv
  pqCost : ∀ c x, (c, x) ∈ st.pq → ∃ cx, alookup st.costs x = some cx ∧ cx ≤ c
  keysEq : ∀ v, (alookup st.parents v).isSome ↔ (alookup st.costs v).isSome
  reach : ∀ v, (alookup st.parents v).isSome → Reach rf startE v
  parentVisited : ∀ v u, alookup st.parents v = some (some u) → u ∈ st.visited
  visitedKeys : ∀ u, u ∈ st.visited → (alookup st.parents u).isSome
  parentsNodup : (st.parents.map Prod.fst).Nodup

theorem initState_inv (rf : RouteFinder) (sim : SimState) (check : Bool)
    (startE : String) : DijkInv rf sim check startE (initState startE) := by
  refine ⟨?_, ?_, ?_, ?_, ?_, ?_, ?_, ?_, ?_⟩
  · intro v pv h _
    by_cases hv : v = startE
    · exact hv
    · simp [initState, alookup, hv] at h
  · intro v u h
    by_cases hv : v = startE <;> simp [initState, alookup, hv] at h
  · intro v u h
    by_cases hv : v = startE <;> simp [initState, alookup, hv] at h
  · intro c x h
    simp only [initState, List.mem_singleton, Prod.mk.injEq] at h
    refine ⟨0, ?_, le_of_eq h.1.symm⟩
    rw [← h.2]
    simp [alookup]
  · intro v
    by_cases hv : v = startE <;> simp [initState, alookup, hv]
  · intro v h
    by_cases hv : v = startE
    · subst hv
      exact Relation.ReflTransGen.refl
    · simp [initState, alookup, hv] at h
  · intro v u h
    by_cases hv : v = startE <;> simp [initState, alookup, hv] at h
  · intro u h
    simp [initState] at h
  · simp [initState]

theorem mem_pqInsert (x y : ℚ × String) (l : List (ℚ × String)) :
    y ∈ pqInsert x l ↔ y = x ∨ y ∈ l := by
  induction l with
  | nil => simp [pqInsert]
  | cons z rest ih =>
      by_cases hc : x.1 < z.1 ∨ (x.1 = z.1 ∧ x.2 < z.2)
      · simp only [pqInsert, if_pos hc, List.mem_cons]
      · simp only [pqInsert, if_neg hc, List.mem_cons, ih]
        tauto

theorem pqInsert_length (x : ℚ × String) (l : List (ℚ × String)) :
    (pqInsert x l).length = l.length + 1 := by
  induction l with
  | nil => simp [pqInsert]
  | cons z rest ih =>
      by_cases hc : x.1 < z.1 ∨ (x.1 = z.1 ∧ x.2 < z.2)
      · simp only [pqInsert, if_pos hc, List.length_cons]
      · simp only [pqInsert, if_neg hc, List.length_cons, ih]

theorem relaxNeighbor_preserves (rf : RouteFinder) (sim : SimState) (check : Bool)
    (startE : String) (c : ℚ) (u v : String) (st st' : DijkState)
    (hrel : relaxNeighbor rf sim check c u st v = some st')
    (hinv : DijkInv rf sim check startE st)
    (hu : u ∈ st.visited)
    (hcu : ∃ cu, alookup st.costs u = some cu ∧ cu ≤ c)
    (hvadj : ∃ l, alookup rf.graph u = some l ∧ v ∈ l) :
    DijkInv rf sim check startE st' ∧
    st'.visited = st.visited ∧
    (∃ cu, alookup st'.costs u = some cu ∧ cu ≤ c) ∧
    st'.pq.length ≤ st.pq.length + 1 := by
  unfold relaxNeighbor at hrel
  by_cases hblk : check = true ∧ is_edge_blocked sim v = true
  · rw [if_pos hblk] at hrel
    injection hrel with hrel
    subst hrel
    exact ⟨hinv, rfl, hcu, Nat.le_succ _⟩
  · rw [if_neg hblk] at hrel
    rcases hwu : alookup rf.edges u with _ | wu
    · simp only [hwu] at hrel
      simp at hrel
    · simp only [hwu] at hrel
      by_cases himp : (match alookup st.costs v with
          | none => true
          | some cv => decide (c + wu < cv)) = true
      · rw [if_pos himp] at hrel
        injection hrel with hrel
        subst hrel
        rcases hcu with ⟨cu, hcu, hcule⟩
        have hlt : ∀ cv0, alookup st.costs v = some cv0 → c + wu < cv0 := by
          intro cv0 hcv0
          simp only [hcv0, decide_eq_true_eq] at himp
          exact himp
        have lcv : alookup (aupsert st.costs v (c + wu)) v = some (c + wu) :=
          alookup_aupsert_self _ _ _
        have lc : ∀ x : String, x ≠ v →
            alookup (aupsert st.costs v (c + wu)) x = alookup st.costs x :=
          fun x hx => alookup_aupsert_ne _ _ _ _ hx
        have lpv : alookup (aupsert st.parents v (some u)) v = some (some u) :=
          alookup_aupsert_self _ _ _
        have lp : ∀ x : String, x ≠ v →
            alookup (aupsert st.parents v (some u)) x = alookup st.parents x :=
          fun x hx => alookup_aupsert_ne _ _ _ _ hx
        have hvunblocked : check = true → is_edge_blocked sim v = false := by
          intro hchk
          rcases hb : is_edge_blocked sim v with _ | _
          · rfl
          · exact absurd ⟨hchk, hb⟩ hblk
        have hreachv : Reach rf startE v := by
          rcases hvadj with ⟨l, hl, hvl⟩
          exact Relation.ReflTransGen.tail
            (hinv.reach u ((hinv.visitedKeys u hu))) ⟨l, hl, hvl⟩
        have hcu2 : ∃ cu2, alookup (aupsert st.costs v (c + wu)) u = some cu2 ∧ cu2 ≤ c := by
          by_cases huv : u = v
          · subst huv
            refine ⟨c + wu, lcv, ?_⟩
            have := hlt cu hcu
            linarith
          · exact ⟨cu, by rw [lc u huv]; exact hcu, hcule⟩
        refine ⟨⟨?_, ?_, ?_, ?_, ?_, ?_, ?_, ?_, ?_⟩, rfl, hcu2, ?_⟩
        · intro x pv hx hpv
          by_cases hxv : x = v
          · subst hxv
            rw [lpv] at hx
            injection hx with hx
            rw [← hx] at hpv
            cases hpv
          · rw [lp x hxv] at hx
            exact hinv.rootOnly x pv hx hpv
        · intro x u0 hx
          by_cases hxv : x = v
          · subst hxv
            rw [lpv] at hx
            injection hx with hx
            injection hx with hx
            subst hx
            exact ⟨hvunblocked, hvadj⟩
          · rw [lp x hxv] at hx
            exact hinv.adj x u0 hx
        · intro x u0 hx
          by_cases hxv : x = v
          · rw [hxv, lpv] at hx
            injection hx with hx
            injection hx with hx
            subst hx
            rw [hxv]
            by_cases huv : u = v
            · have hcuv : alookup st.costs v = some cu := by
                rw [← huv]
                exact hcu
              have hltu := hlt cu hcuv
              refine ⟨c + wu, c + wu, wu, by rw [huv]; exact lcv, lcv, hwu, ?_⟩
              linarith
            · refine ⟨cu, c + wu, wu, by rw [lc u huv]; exact hcu, lcv, hwu, ?_⟩
              linarith
          · rw [lp x hxv] at hx
            rcases hinv.costRel x u0 hx with ⟨cu0, cv0, wu0, hcu0, hcv0, hwu0, hle0⟩
            by_cases hu0v : u0 = v
            · subst hu0v
              have hltv := hlt cu0 hcu0
              refine ⟨c + wu, cv0, wu0, lcv, by rw [lc x hxv]; exact hcv0, hwu0, ?_⟩
              linarith
            · exact ⟨cu0, cv0, wu0, by rw [lc u0 hu0v]; exact hcu0,
                by rw [lc x hxv]; exact hcv0, hwu0, hle0⟩
        · intro c0 x hmem
          rcases (mem_pqInsert _ _ _).mp hmem with hx | hx
          · injection hx with hx1 hx2
            subst hx2
            exact ⟨c + wu, lcv, le_of_eq hx1.symm⟩
          · rcases hinv.pqCost c0 x hx with ⟨cx, hcx, hcxle⟩
            by_cases hxv : x = v
            · subst hxv
              have := hlt cx hcx
              exact ⟨c + wu, lcv, by linarith⟩
            · exact ⟨cx, by rw [lc x hxv]; exact hcx, hcxle⟩
        · intro x
          by_cases hxv : x = v
          · subst hxv
            rw [lpv, lcv]
            simp
          · rw [lp x hxv, lc x hxv]
            exact hinv.keysEq x
        · intro x hx
          by_cases hxv : x = v
          · subst hxv
            exact hreachv
          · rw [lp x hxv] at hx
            exact hinv.reach x hx
        · intro x u0 hx
          by_cases hxv : x = v
          · subst hxv
            rw [lpv] at hx
            injection hx with hx
            injection hx with hx
            subst hx
            exact hu
          · rw [lp x hxv] at hx
            exact hinv.parentVisited x u0 hx
        · intro u0 hu0
          by_cases hu0v : u0 = v
          · subst hu0v
            rw [lpv]
            rfl
          · rw [lp u0 hu0v]
            exact hinv.visitedKeys u0 hu0
        · exact aupsert_nodup _ _ _ hinv.parentsNodup
        · simp [pqInsert_length]
      · rw [if_neg himp] at hrel
        injection hrel with hrel
        subst hrel
        exact ⟨hinv, rfl, hcu, Nat.le_succ _⟩

theorem relaxNeighbor_isSome (rf : RouteFinder) (sim : SimState) (check : Bool)
    (c : ℚ) (u v : String) (st : DijkState)
    (hwu : (alookup rf.edges u).isSome) :
    (relaxNeighbor rf sim check c u st v).isSome := by
  unfold relaxNeighbor
  by_cases hblk : check = true ∧ is_edge_blocked sim v = true
  · rw [if_pos hblk]
    rfl
  · rw [if_neg hblk]
    rcases h : alookup rf.edges u with _ | wu
    · rw [h] at hwu
      simp at hwu
    · simp only [h]
      by_cases himp : (match alookup st.costs v with
          | none => true
          | some cv => decide (c + wu < cv)) = true
      · rw [if_pos himp]
        rfl
      · rw [if_neg himp]
        rfl

theorem relaxAll_isSome (rf : RouteFinder) (sim : SimState) (check : Bool)
    (c : ℚ) (u : String) (hwu : (alookup rf.edges u).isSome) :
    ∀ (nbrs : List String) (st : DijkState),
      (relaxAll rf sim check c u nbrs st).isSome := by
  intro nbrs
  induction nbrs with
  | nil => intro st; rfl
  | cons v vs ih =>
      intro st
      rcases hrel : relaxNeighbor rf sim check c u st v with _ | st1
      · have := relaxNeighbor_isSome rf sim check c u v st hwu
        rw [hrel] at this
        simp at this
      · simp only [relaxAll, hrel]
        exact ih st1

theorem relaxAll_preserves (rf : RouteFinder) (sim : SimState) (check : Bool)
    (startE : String) (c : ℚ) (u : String) :
    ∀ (nbrs : List String) (st st' : DijkState),
      relaxAll rf sim check c u nbrs st = some st' →
      DijkInv rf sim check startE st →
      u ∈ st.visited →
      (∃ cu, alookup st.costs u = some cu ∧ cu ≤ c) →
      (∀ v ∈ nbrs, ∃ l, alookup rf.graph u = some l ∧ v ∈ l) →
      DijkInv rf sim check startE st' ∧ st'.visited = st.visited ∧
        st'.pq.length ≤ st.pq.length + nbrs.length := by
  intro nbrs
  induction nbrs with
  | nil =>
      intro st st' h hinv _ _ _
      injection h with h
      subst h
      exact ⟨hinv, rfl, by simp⟩
  | cons v vs ih =>
      intro st st' h hinv hu hcu hadj
      rcases hrel : relaxNeighbor rf sim check c u st v with _ | st1
      · simp only [relaxAll, hrel] at h
        simp at h
      · simp only [relaxAll, hrel] at h
        rcases relaxNeighbor_preserves rf sim check startE c u v st st1 hrel hinv hu hcu
          (hadj v (List.mem_cons_self _ _)) with ⟨hinv1, hvis1, hcu1, hlen1⟩
        rcases ih st1 st' h hinv1 (by rw [hvis1]; exact hu) hcu1
          (fun w hw => hadj w (List.mem_cons_of_mem _ hw)) with ⟨hinv2, hvis2, hlen2⟩
        refine ⟨hinv2, by rw [hvis2, hvis1], ?_⟩
        simp only [List.length_cons]
        omega

theorem DijkInv_pq_tail (rf : RouteFinder) (sim : SimState) (check : Bool)
    (startE : String) (st : DijkState) (hinv : DijkInv rf sim check startE st)
    (pq2 : List (ℚ × String)) (hsub : ∀ x ∈ pq2, x ∈ st.pq) :
    DijkInv rf sim check startE ⟨pq2, st.costs, st.parents, st.visited⟩ :=
  ⟨hinv.rootOnly, hinv.adj, hinv.costRel,
    fun c x hx => hinv.pqCost c x (hsub (c, x) hx),
    hinv.keysEq, hinv.reach, hinv.parentVisited, hinv.visitedKeys, hinv.parentsNodup⟩

theorem DijkInv_visit (rf : RouteFinder) (sim : SimState) (check : Bool)
    (startE : String) (st : DijkState) (hinv : DijkInv rf sim check startE st)
    (pq2 : List (ℚ × String)) (hsub : ∀ x ∈ pq2, x ∈ st.pq)
    (u : String) (hu : (alookup st.parents u).isSome) :
    DijkInv rf sim check startE ⟨pq2, st.costs, st.parents, st.visited ++ [u]⟩ :=
  ⟨hinv.rootOnly, hinv.adj, hinv.costRel,
    fun c x hx => hinv.pqCost c x (hsub (c, x) hx),
    hinv.keysEq, hinv.reach,
    fun v u0 hv => List.mem_append_left _ (hinv.parentVisited v u0 hv),
    fun u0 hu0 => by
      rcases List.mem_append.mp hu0 with h1 | h1
      · exact hinv.visitedKeys u0 h1
      · have : u0 = u := by simpa using h1
        rw [this]
        exact hu,
    hinv.parentsNodup⟩

theorem dijkstraLoop_preserves (rf : RouteFinder) (sim : SimState) (check : Bool)
    (endE startE : String) :
    ∀ (fuel : ℕ) (st st' : DijkState),
      dijkstraLoop rf sim check endE fuel st = some st' →
      DijkInv rf sim check startE st → DijkInv rf sim check startE st' := by
  intro fuel
  induction fuel with
  | zero =>
      intro st st' h
      simp [dijkstraLoop] at h
  | succ n ih =>
      intro st st' h hinv
      rcases hpq : st.pq with _ | ⟨⟨c, u⟩, rest⟩
      · simp only [dijkstraLoop, hpq] at h
        injection h with h
        subst h
        exact hinv
      · have hmemu : (c, u) ∈ st.pq := by
          rw [hpq]
          exact List.mem_cons_self _ _
        have hukey : (alookup st.parents u).isSome := by
          rcases hinv.pqCost c u hmemu with ⟨cx, hcx, _⟩
          rw [hinv.keysEq u, hcx]
          rfl
        simp only [dijkstraLoop, hpq] at h
        by_cases hend : u = endE
        · rw [if_pos hend] at h
          injection h with h
          subst h
          exact hinv
        · rw [if_neg hend] at h
          by_cases hvis : u ∈ st.visited
          · rw [if_pos hvis] at h
            exact ih _ _ h (DijkInv_pq_tail rf sim check startE st hinv rest
              (fun x hx => by rw [hpq]; exact List.mem_cons_of_mem _ hx))
          · rw [if_neg hvis] at h
            rcases hg : alookup rf.graph u with _ | nbrs
            · simp only [hg] at h
              exact ih _ _ h (DijkInv_visit rf sim check startE st hinv rest
                (fun x hx => by rw [hpq]; exact List.mem_cons_of_mem _ hx) u hukey)
            · simp only [hg] at h
              rcases hrelax : relaxAll rf sim check c u nbrs
                  ⟨rest, st.costs, st.parents, st.visited ++ [u]⟩ with _ | st2
              · simp only [hrelax] at h
                simp at h
              · simp only [hrelax] at h
                have hinv1 := DijkInv_visit rf sim check startE st hinv rest
                  (fun x hx => by rw [hpq]; exact List.mem_cons_of_mem _ hx) u hukey
                rcases relaxAll_preserves rf sim check startE c u nbrs _ st2 hrelax hinv1
                  (List.mem_append_right _ (List.mem_singleton.mpr rfl))
                  (by
                    rcases hinv.pqCost c u hmemu with ⟨cx, hcx, hle⟩
                    exact ⟨cx, hcx, hle⟩)
                  (fun v hv => ⟨nbrs, hg, hv⟩) with ⟨hinv2, _, _⟩
                exact ih _ _ h hinv2

theorem my_filter_congr {α : Type} (f1 f2 : α → Bool) :
    ∀ l : List α, (∀ a ∈ l, f1 a = f2 a) → l.filter f1 = l.filter f2 := by
  intro l
  induction l with
  | nil => intro _; rfl
  | cons a rest ih =>
      intro h
      simp only [List.filter_cons]
      rw [h a (List.mem_cons_self _ _), ih (fun b hb => h b (List.mem_cons_of_mem _ hb))]

/-- The part of the graph's adjacency mass not yet expanded. -/
def adjRemaining (g : List (String × List String)) (visited : List String) : ℕ :=
  ((g.filter (fun p => decide (p.1 ∉ visited))).map (fun p => p.2.length)).sum

theorem adjRemaining_visit (visited : List String) (u : String) (nbrs : List String) :
    ∀ g : List (String × List String),
      (g.map Prod.fst).Nodup → alookup g u = some nbrs → u ∉ visited →
      adjRemaining g (visited ++ [u]) + nbrs.length = adjRemaining g visited := by
  intro g
  induction g with
  | nil =>
      intro _ hu _
      simp [alookup] at hu
  | cons q rest ih =>
      intro hnd hu hnv
      rw [List.map_cons] at hnd
      have hndtail : (rest.map Prod.fst).Nodup := (List.nodup_cons.mp hnd).2
      by_cases hq : u = q.1
      · have hval : q.2 = nbrs := by
          have h2 : alookup (q :: rest) u = some q.2 := by
            cases q
            simp [alookup, hq]
          rw [h2] at hu
          injection hu
        have hukeys : u ∉ rest.map Prod.fst := by
          have h1 := (List.nodup_cons.mp hnd).1
          rw [hq]
          exact h1
        have hl : (decide (q.1 ∉ visited ++ [u])) = false := by
          apply decide_eq_false
          intro hcon
          apply hcon
          rw [← hq]
          exact List.mem_append_right _ (List.mem_singleton.mpr rfl)
        have hr : (decide (q.1 ∉ visited)) = true := by
          apply decide_eq_true
          rw [← hq]
          exact hnv
        have htail : rest.filter (fun p => decide (p.1 ∉ visited ++ [u]))
            = rest.filter (fun p => decide (p.1 ∉ visited)) := by
          apply my_filter_congr
          intro p hp
          apply decide_eq_decide.mpr
          have hpu : p.1 ≠ u := by
            intro hcon
            apply hukeys
            rw [← hcon]
            exact List.mem_map_of_mem Prod.fst hp
          simp [List.mem_append, hpu]
        have hfl : (q :: rest).filter (fun p => decide (p.1 ∉ visited ++ [u]))
            = rest.filter (fun p => decide (p.1 ∉ visited)) := by
          rw [List.filter_cons]
          simp only [hl, Bool.false_eq_true, if_false, htail]
        have hfr : (q :: rest).filter (fun p => decide (p.1 ∉ visited))
            = q :: rest.filter (fun p => decide (p.1 ∉ visited)) := by
          rw [List.filter_cons]
          simp only [hr, if_true]
        unfold adjRemaining
        rw [hfl, hfr]
        simp only [List.map_cons, List.sum_cons]
        rw [hval]
        omega
      · have hcond : (decide (q.1 ∉ visited ++ [u])) = (decide (q.1 ∉ visited)) := by
          apply decide_eq_decide.mpr
          have hne : q.1 ≠ u := fun h => hq h.symm
          simp [List.mem_append, hne]
        have hu2 : alookup rest u = some nbrs := by
          have h2 : alookup (q :: rest) u = alookup rest u := by
            cases q
            simp [alookup, hq]
          rw [← h2]
          exact hu
        have htaileq := ih hndtail hu2 hnv
        rcases hb : decide (q.1 ∉ visited) with _ | _
        · unfold adjRemaining at htaileq ⊢
          simp only [List.filter_cons, hcond, hb, Bool.false_eq_true, if_false]
          exact htaileq
        · unfold adjRemaining at htaileq ⊢
          simp only [List.filter_cons, hcond, hb, if_true, List.map_cons, List.sum_cons]
          omega

theorem adjRemaining_skip (g : List (String × List String)) (visited : List String)
    (u : String) (hu : alookup g u = none) :
    adjRemaining g (visited ++ [u]) = adjRemaining g visited := by
  unfold adjRemaining
  have hukeys : u ∉ g.map Prod.fst := by
    intro hmem
    have := (alookup_isSome_iff g u).mpr hmem
    rw [hu] at this
    simp at this
  have : g.filter (fun p => decide (p.1 ∉ visited ++ [u]))
      = g.filter (fun p => decide (p.1 ∉ visited)) := by
    apply my_filter_congr
    intro p hp
    apply decide_eq_decide.mpr
    have hpu : p.1 ≠ u := by
      intro hcon
      apply hukeys
      rw [← hcon]
      exact List.mem_map_of_mem Prod.fst hp
    simp [List.mem_append, hpu]
  rw [this]

/-- The strictly decreasing loop measure: pending heap entries plus the
adjacency mass of unexpanded nodes. -/
def dijkMeasure (rf : RouteFinder) (st : DijkState) : ℕ :=
  st.pq.length + adjRemaining rf.graph st.visited

theorem dijkstraLoop_total (rf : RouteFinder) (sim : SimState) (check : Bool)
    (endE startE : String) (hwf : WF rf) :
    ∀ (fuel : ℕ) (st : DijkState),
      DijkInv rf sim check startE st → dijkMeasure rf st < fuel →
      (dijkstraLoop rf sim check endE fuel st).isSome := by
  intro fuel
  induction fuel with
  | zero =>
      intro st _ hm
      exact absurd hm (Nat.not_lt_zero _)
  | succ n ih =>
      intro st hinv hm
      rcases hpq : st.pq with _ | ⟨⟨c, u⟩, rest⟩
      · simp only [dijkstraLoop, hpq]
        rfl
      · have hmeq : dijkMeasure rf st = rest.length + 1 + adjRemaining rf.graph st.visited := by
          unfold dijkMeasure
          rw [hpq]
          simp [List.length_cons]
        rw [hmeq] at hm
        simp only [dijkstraLoop, hpq]
        by_cases hend : u = endE
        · rw [if_pos hend]
          rfl
        · rw [if_neg hend]
          by_cases hvis : u ∈ st.visited
          · rw [if_pos hvis]
            apply ih _ (DijkInv_pq_tail rf sim check startE st hinv rest
              (fun x hx => by rw [hpq]; exact List.mem_cons_of_mem _ hx))
            show rest.length + adjRemaining rf.graph st.visited < n
            omega
          · rw [if_neg hvis]
            have hmemu : (c, u) ∈ st.pq := by
              rw [hpq]
              exact List.mem_cons_self _ _
            have hukey : (alookup st.parents u).isSome := by
              rcases hinv.pqCost c u hmemu with ⟨cx, hcx, _⟩
              rw [hinv.keysEq u, hcx]
              rfl
            rcases hg : alookup rf.graph u with _ | nbrs
            · simp only [hg]
              apply ih _ (DijkInv_visit rf sim check startE st hinv rest
                (fun x hx => by rw [hpq]; exact List.mem_cons_of_mem _ hx) u hukey)
              show rest.length + adjRemaining rf.graph (st.visited ++ [u]) < n
              rw [adjRemaining_skip rf.graph st.visited u hg]
              omega
            · simp only [hg]
              have hwu : (alookup rf.edges u).isSome := by
                rw [alookup_isSome_iff, ← hwf.2.1, ← alookup_isSome_iff, hg]
                rfl
              have hsome := relaxAll_isSome rf sim check c u hwu nbrs
                ⟨rest, st.costs, st.parents, st.visited ++ [u]⟩
              rcases hrelax : relaxAll rf sim check c u nbrs
                  ⟨rest, st.costs, st.parents, st.visited ++ [u]⟩ with _ | st2
              · rw [hrelax] at hsome
                simp at hsome
              · simp only [hrelax]
                have hinv1 := DijkInv_visit rf sim check startE st hinv rest
                  (fun x hx => by rw [hpq]; exact List.mem_cons_of_mem _ hx) u hukey
                rcases relaxAll_preserves rf sim check startE c u nbrs _ st2 hrelax hinv1
                  (List.mem_append_right _ (List.mem_singleton.mpr rfl))
                  (by
                    rcases hinv.pqCost c u hmemu with ⟨cx, hcx, hle⟩
                    exact ⟨cx, hcx, hle⟩)
                  (fun v hv => ⟨nbrs, hg, hv⟩) with ⟨hinv2, hvis2, hlen2⟩
                apply ih st2 hinv2
                have hgnd : (rf.graph.map Prod.fst).Nodup := by
                  rw [hwf.2.1]
                  exact hwf.1
                have hav := adjRemaining_visit st.visited u nbrs rf.graph hgnd hg hvis
                have hlen2a : st2.pq.length ≤ rest.length + nbrs.length := hlen2
                have hma : rest.length + 1 + adjRemaining rf.graph st.visited < n + 1 := hm
                unfold dijkMeasure
                rw [hvis2]
                show st2.pq.length + adjRemaining rf.graph (st.visited ++ [u]) < n
                omega

theorem reconstruct_total (rf : RouteFinder)
    (parents : List (String × Option String)) (costs : List (String × ℚ))
    (hcostRel : ∀ v u, alookup parents v = some (some u) →
      ∃ cu cv wu, alookup costs u = some cu ∧ alookup costs v = some cv ∧
        alookup rf.edges u = some wu ∧ cu + wu ≤ cv)
    (hpos : ∀ p ∈ rf.edges, 0 < p.2)
    (hclosure : ∀ v u, alookup parents v = some (some u) → (alookup parents u).isSome) :
    ∀ (fuel : ℕ) (seen : List String) (curr : String),
      (alookup parents curr).isSome →
      (∀ s ∈ seen, s ∈ parents.map Prod.fst) →
      seen.Nodup →
      (∀ s ∈ seen, ∃ cs ccur, alookup costs s = some cs ∧ alookup costs curr = some ccur ∧
        ccur < cs) →
      parents.length + 1 ≤ seen.length + fuel →
      (reconstruct parents fuel curr).isSome := by
  intro fuel
  induction fuel with
  | zero =>
      intro seen curr _ hsub hsnd _ hlen
      have hle : seen.length ≤ (parents.map Prod.fst).length :=
        (List.subperm_of_subset hsnd hsub).length_le
      rw [List.length_map] at hle
      omega
  | succ n ih =>
      intro seen curr hcurr hsub hsnd horder hlen
      by_cases hemp : curr = ""
      · simp only [reconstruct, if_pos hemp]
        rfl
      · simp only [reconstruct, if_neg hemp]
        rcases hlook : alookup parents curr with _ | pv
        · rw [hlook] at hcurr
          simp at hcurr
        · rcases pv with _ | p
          · rfl
          · have hp : (alookup parents p).isSome := hclosure curr p hlook
            rcases hcostRel curr p hlook with ⟨cp, ccur, wp, hcp, hccur, hwp, hle⟩
            have hwpos : 0 < wp := hpos (p, wp) (alookup_mem _ _ _ hwp)
            have hstrict : cp < ccur := by linarith
            have hcurrmem : curr ∈ parents.map Prod.fst := by
              rw [← alookup_isSome_iff, hlook]
              rfl
            have hcurrnot : curr ∉ seen := by
              intro hmem
              rcases horder curr hmem with ⟨cs, ccur2, hcs, hccur2, hlt⟩
              rw [hccur2] at hcs
              injection hcs with hcs
              rw [hcs] at hlt
              exact lt_irrefl _ hlt
            have hrec := ih (curr :: seen) p hp
              (by
                intro s hs
                rcases List.mem_cons.mp hs with h1 | h1
                · rw [h1]
                  exact hcurrmem
                · exact hsub s h1)
              (List.nodup_cons.mpr ⟨hcurrnot, hsnd⟩)
              (by
                intro s hs
                rcases List.mem_cons.mp hs with h1 | h1
                · exact ⟨ccur, cp, by rw [h1]; exact hccur, hcp, hstrict⟩
                · rcases horder s h1 with ⟨cs, ccur2, hcs, hccur2, hlt⟩
                  rw [hccur] at hccur2
                  injection hccur2 with hccur2
                  refine ⟨cs, cp, hcs, hcp, ?_⟩
                  rw [← hccur2] at hlt
                  linarith)
              (by
                simp only [List.length_cons]
                omega)
            rcases hsubrec : reconstruct parents n p with _ | path
            · rw [hsubrec] at hrec
              simp at hrec
            · simp only [hsubrec]
              rfl

theorem reconstruct_shape (parents : List (String × Option String)) :
    ∀ (fuel : ℕ) (curr : String) (path : List String),
      reconstruct parents fuel curr = some path →
      (path = [] ∧ curr = "") ∨
      (path.head? = some curr ∧
        List.Chain' (fun a b => alookup parents a = some (some b)) path ∧
        ∃ last, path.getLast? = some last ∧
          (alookup parents last = some none ∨ alookup parents last = some (some ""))) := by
  intro fuel
  induction fuel with
  | zero =>
      intro curr path h
      simp [reconstruct] at h
  | succ n ih =>
      intro curr path h
      by_cases hemp : curr = ""
      · simp only [reconstruct, if_pos hemp] at h
        injection h with h
        exact Or.inl ⟨h.symm, hemp⟩
      · simp only [reconstruct, if_neg hemp] at h
        rcases hlook : alookup parents curr with _ | pv
        · rw [hlook] at h
          simp at h
        · rcases pv with _ | p
          · rw [hlook] at h
            injection h with h
            subst h
            refine Or.inr ⟨rfl, List.chain'_singleton _, curr, rfl, Or.inl hlook⟩
          · simp only [hlook] at h
            rcases hsub : reconstruct parents n p with _ | sub
            · rw [hsub] at h
              simp at h
            · rw [hsub] at h
              injection h with h
              subst h
              rcases ih p sub hsub with ⟨hsubnil, hpemp⟩ | ⟨hhead, hchain, last, hlast, hroot⟩
              · subst hsubnil
                refine Or.inr ⟨rfl, List.chain'_singleton _, curr, rfl, Or.inr ?_⟩
                rw [hpemp] at hlook
                exact hlook
              · refine Or.inr ⟨rfl, ?_, last, ?_, hroot⟩
                · rcases hsubc : sub with _ | ⟨s0, srest⟩
                  · subst hsubc
                    simp at hlast
                  · rw [hsubc] at hhead hchain
                    injection hhead with hhead
                    refine List.chain'_cons.mpr ⟨?_, hchain⟩
                    rw [hhead]
                    exact hlook
                · rcases hsubc : sub with _ | ⟨s0, srest⟩
                  · subst hsubc
                    simp at hlast
                  · rw [List.getLast?_cons_cons]
                    exact hsubc ▸ hlast

/-- Every parent-dictionary key recorded by the search is a known edge of
the graph (requires well-formedness, and that the start edge is known). -/
def KeysKnown (rf : RouteFinder) (st : DijkState) : Prop :=
  ∀ v, (alookup st.parents v).isSome → (alookup rf.edges v).isSome

theorem relaxNeighbor_keysKnown (rf : RouteFinder) (sim : SimState) (check : Bool)
    (c : ℚ) (u v : String) (st st' : DijkState) (hwf : WF rf)
    (hrel : relaxNeighbor rf sim check c u st v = some st')
    (hvadj : ∃ l, alookup rf.graph u = some l ∧ v ∈ l)
    (hkk : KeysKnown rf st) : KeysKnown rf st' := by
  unfold relaxNeighbor at hrel
  by_cases hblk : check = true ∧ is_edge_blocked sim v = true
  · rw [if_pos hblk] at hrel
    injection hrel with hrel
    subst hrel
    exact hkk
  · rw [if_neg hblk] at hrel
    rcases hwu : alookup rf.edges u with _ | wu
    · simp only [hwu] at hrel
      simp at hrel
    · simp only [hwu] at hrel
      by_cases himp : (match alookup st.costs v with
          | none => true
          | some cv => decide (c + wu < cv)) = true
      · rw [if_pos himp] at hrel
        injection hrel with hrel
        subst hrel
        intro x hx
        by_cases hxv : x = v
        · rcases hvadj with ⟨nbrs, hg, hv⟩
          rw [hxv, alookup_isSome_iff]
          exact hwf.2.2 (u, nbrs) (alookup_mem _ _ _ hg) v hv
        · rw [alookup_aupsert_ne _ _ _ _ hxv] at hx
          exact hkk x hx
      · rw [if_neg himp] at hrel
        injection hrel with hrel
        subst hrel
        exact hkk

theorem relaxAll_keysKnown (rf : RouteFinder) (sim : SimState) (check : Bool)
    (c : ℚ) (u : String) (hwf : WF rf) :
    ∀ (nbrs : List String) (st st' : DijkState),
      relaxAll rf sim check c u nbrs st = some st' →
      (∀ v ∈ nbrs, ∃ l, alookup rf.graph u = some l ∧ v ∈ l) →
      KeysKnown rf st → KeysKnown rf st' := by
  intro nbrs
  induction nbrs with
  | nil =>
      intro st st' h _ hkk
      injection h with h
      subst h
      exact hkk
  | cons v vs ih =>
      intro st st' h hadj hkk
      rcases hrel : relaxNeighbor rf sim check c u st v with _ | st1
      · simp only [relaxAll, hrel] at h
        simp at h
      · simp only [relaxAll, hrel] at h
        exact ih st1 st' h (fun w hw => hadj w (List.mem_cons_of_mem _ hw))
          (relaxNeighbor_keysKnown rf sim check c u v st st1 hwf hrel
            (hadj v (List.mem_cons_self _ _)) hkk)

theorem dijkstraLoop_keysKnown (rf : RouteFinder) (sim : SimState) (check : Bool)
    (endE : String) (hwf : WF rf) :
    ∀ (fuel : ℕ) (st st' : DijkState),
      dijkstraLoop rf sim check endE fuel st = some st' →
      KeysKnown rf st → KeysKnown rf st' := by
  intro fuel
  induction fuel with
  | zero =>
      intro st st' h
      simp [dijkstraLoop] at h
  | succ n ih =>
      intro st st' h hkk
      rcases hpq : st.pq with _ | ⟨⟨c, u⟩, rest⟩
      · simp only [dijkstraLoop, hpq] at h
        injection h with h
        subst h
        exact hkk
      · simp only [dijkstraLoop, hpq] at h
        by_cases hend : u = endE
        · rw [if_pos hend] at h
          injection h with h
          subst h
          exact hkk
        · rw [if_neg hend] at h
          by_cases hvis : u ∈ st.visited
          · rw [if_pos hvis] at h
            exact ih _ _ h hkk
          · rw [if_neg hvis] at h
            rcases hg : alookup rf.graph u with _ | nbrs
            · simp only [hg] at h
              exact ih _ _ h hkk
            · simp only [hg] at h
              rcases hrelax : relaxAll rf sim check c u nbrs
                  ⟨rest, st.costs, st.parents, st.visited ++ [u]⟩ with _ | st2
              · simp only [hrelax] at h
                simp at h
              · simp only [hrelax] at h
                exact ih _ _ h (relaxAll_keysKnown rf sim check c u hwf nbrs _ st2 hrelax
                  (fun v hv => ⟨nbrs, hg, hv⟩) hkk)

/-- C5: for every pair of edge ids, find_route returns normally (the
embedding never reaches a raising or non-terminating spot, given the
well-formed parsed graph and positive lane lengths); it returns the empty
sequence when either endpoint is unknown, and also whenever the destination
is unreachable from the start in the parsed graph. -/
theorem find_route_error_handling (rf : RouteFinder) (sim : SimState)
    (hwf : WF rf) (hpos : ∀ p ∈ rf.edges, 0 < p.2)
    (startE endE : String) (check : Bool) :
    (∃ l, find_route rf sim startE endE check = some l) ∧
    ((alookup rf.edges startE).isNone ∨ (alookup rf.edges endE).isNone →
      find_route rf sim startE endE check = some []) ∧
    (¬ Reach rf startE endE → find_route rf sim startE endE check = some []) := by
  unfold find_route
  by_cases hknown : (alookup rf.edges startE).isNone ∨ (alookup rf.edges endE).isNone
  · rw [if_pos hknown]
    exact ⟨⟨[], rfl⟩, fun _ => rfl, fun _ => rfl⟩
  · rw [if_neg hknown]
    have hinv0 := initState_inv rf sim check startE
    have hm0 : dijkMeasure rf (initState startE) < dijkstraFuel rf := by
      have hfilter : rf.graph.filter (fun p => decide (p.1 ∉ ([] : List String)))
          = rf.graph := by
        rw [my_filter_congr _ (fun _ => true) rf.graph (by intro a _; simp)]
        exact List.filter_true _
      unfold dijkMeasure dijkstraFuel initState adjRemaining
      rw [hfilter]
      simp only [List.length_singleton]
      omega
    have htotal := dijkstraLoop_total rf sim check endE startE hwf (dijkstraFuel rf)
      (initState startE) hinv0 hm0
    rcases hloop : dijkstraLoop rf sim check endE (dijkstraFuel rf) (initState startE)
      with _ | st
    · rw [hloop] at htotal
      simp at htotal
    · simp only [hloop]
      have hinv := dijkstraLoop_preserves rf sim check endE startE _ _ _ hloop hinv0
      rcases hpar : alookup st.parents endE with _ | pv
      · exact ⟨⟨[], rfl⟩, fun hk => absurd hk hknown, fun _ => rfl⟩
      · have hrec := reconstruct_total rf st.parents st.costs hinv.costRel hpos
          (fun v u hv => hinv.visitedKeys u (hinv.parentVisited v u hv))
          (st.parents.length + 1) [] endE (by rw [hpar]; rfl)
          (by intro s hs; simp at hs) List.nodup_nil
          (by intro s hs; simp at hs) (by simp)
        rcases hr : reconstruct st.parents (st.parents.length + 1) endE with _ | path
        · rw [hr] at hrec
          simp at hrec
        · refine ⟨⟨path.reverse, rfl⟩, fun hk => absurd hk hknown, fun hnr => ?_⟩
          exact absurd (hinv.reach endE (by rw [hpar]; rfl)) hnr

/-- Fixed inputs for the C5 witness: a two-edge graph with positive
lengths and an idle simulation. -/
def c5rf : RouteFinder := ⟨[("A", 1), ("B", 1)], [("A", ["B"]), ("B", [])]⟩

def c5sim : SimState := ⟨false, fun _ => none, fun _ => none, fun _ => none, fun _ => none⟩

/-- Concrete instantiation of the C5 theorem: an unknown start edge makes
find_route return the empty route (and return normally). -/
theorem find_route_error_handling_witness :
    find_route c5rf c5sim "X" "B" true = some [] := by
  have h := find_route_error_handling c5rf c5sim (by decide) (by decide) "X" "B" true
  exact h.2.1 (Or.inl (by decide))

/-- Fixed inputs for the C2 counterexample: edge A is fully closed, and the
only route from A to B starts on it. -/
def c2rf : RouteFinder := ⟨[("A", 1), ("B", 1)], [("A", ["B"]), ("B", [])]⟩

def c2sim : SimState :=
  ⟨true, fun e => if e = "A" then some [["passenger"]] else some [[]],
    fun _ => none, fun _ => none, fun _ => none⟩

/-- C2 counterexample: with check_closures set, find_route still returns the
path A-B although edge A is blocked — the start edge is never subjected to
the blockage check, so "the returned path contains no blocked edge" is
false as stated. -/
theorem find_route_blocked_start_cex :
    find_route c2rf c2sim "A" "B" true = some ["A", "B"] ∧
    is_edge_blocked c2sim "A" = true := by
  constructor
  · decide
  · decide

theorem reconstruct_mem_binding (parents : List (String × Option String)) :
    ∀ (fuel : ℕ) (curr : String) (path : List String),
      reconstruct parents fuel curr = some path →
      ∀ x ∈ path, ∃ pv, alookup parents x = some pv := by
  intro fuel
  induction fuel with
  | zero =>
      intro curr path h
      simp [reconstruct] at h
  | succ n ih =>
      intro curr path h x hx
      by_cases hemp : curr = ""
      · simp only [reconstruct, if_pos hemp] at h
        injection h with h
        rw [← h] at hx
        simp at hx
      · simp only [reconstruct, if_neg hemp] at h
        rcases hlook : alookup parents curr with _ | pv
        · rw [hlook] at h
          simp at h
        · rcases pv with _ | p
          · rw [hlook] at h
            injection h with h
            rw [← h] at hx
            simp only [List.mem_singleton] at hx
            subst hx
            exact ⟨none, hlook⟩
          · simp only [hlook] at h
            rcases hsub : reconstruct parents n p with _ | sub
            · rw [hsub] at h
              simp at h
            · rw [hsub] at h
              injection h with h
              rw [← h] at hx
              rcases List.mem_cons.mp hx with hx1 | hx1
              · subst hx1
                exact ⟨some p, hlook⟩
              · exact ih p sub hsub x hx1

/-- C2 (amended): with check_closures set, any returned path contains no
blocked edge other than possibly the start edge itself (the start edge is
where the vehicle already is and is never subjected to the blockage
check). -/
theorem find_route_blocked_only_start (rf : RouteFinder) (sim : SimState)
    (startE endE : String) (l : List String)
    (h : find_route rf sim startE endE true = some l) :
    ∀ x ∈ l, is_edge_blocked sim x = true → x = startE := by
  unfold find_route at h
  by_cases hknown : (alookup rf.edges startE).isNone ∨ (alookup rf.edges endE).isNone
  · rw [if_pos hknown] at h
    injection h with h
    intro x hx
    rw [← h] at hx
    simp at hx
  · rw [if_neg hknown] at h
    rcases hloop : dijkstraLoop rf sim true endE (dijkstraFuel rf) (initState startE)
      with _ | st
    · rw [hloop] at h
      simp at h
    · rw [hloop] at h
      have hinv := dijkstraLoop_preserves rf sim true endE startE _ _ _ hloop
        (initState_inv rf sim true startE)
      rcases hpar : alookup st.parents endE with _ | pv
      · simp only [hpar] at h
        injection h with h
        intro x hx
        rw [← h] at hx
        simp at hx
      · simp only [hpar] at h
        rcases hr : reconstruct st.parents (st.parents.length + 1) endE with _ | path
        · rw [hr] at h
          simp at h
        · rw [hr] at h
          injection h with h
          intro x hx hblk
          rw [← h, List.mem_reverse] at hx
          rcases reconstruct_mem_binding st.parents _ _ _ hr x hx with ⟨pv2, hpv2⟩
          rcases pv2 with _ | u
          · exact hinv.rootOnly x none hpv2 rfl
          · have hub := (hinv.adj x u hpv2).1 rfl
            rw [hblk] at hub
            cases hub

theorem find_route_self (rf : RouteFinder) (sim : SimState) (startE : String)
    (check : Bool) (hsome : (alookup rf.edges startE).isSome) (hne0 : startE ≠ "") :
    find_route rf sim startE startE check = some [startE] := by
  unfold find_route
  have hknown : ¬ ((alookup rf.edges startE).isNone = true
      ∨ (alookup rf.edges startE).isNone = true) := by
    rcases ho : alookup rf.edges startE with _ | w
    · rw [ho] at hsome
      simp at hsome
    · simp [ho]
  rw [if_neg hknown]
  have hm : dijkstraFuel rf = ((rf.graph.map (fun p => p.2.length)).sum + 1) + 1 := rfl
  rw [hm]
  have hlook : alookup [(startE, (none : Option String))] startE = some none := by
    simp [alookup]
  simp [dijkstraLoop, initState, hlook, reconstruct, hne0]

/-- C10 (amended): over a well-formed parsed graph with no empty-string
edge id, every non-empty returned path starts at the start edge, ends at
the destination edge, and follows arcs of the parsed adjacency graph; and
when start equals destination (a known edge) the result is exactly the
one-element path, even when that edge is blocked. -/
theorem find_route_path_shape (rf : RouteFinder) (sim : SimState)
    (hwf : WF rf) (hne : alookup rf.edges "" = none)
    (startE endE : String) (check : Bool) (l : List String)
    (h : find_route rf sim startE endE check = some l) :
    (l ≠ [] → l.head? = some startE ∧ l.getLast? = some endE ∧
      List.Chain' (fun a b => ∃ nbrs, alookup rf.graph a = some nbrs ∧ b ∈ nbrs) l) ∧
    (startE = endE → (alookup rf.edges startE).isSome → l = [startE]) := by
  constructor
  · intro hlne
    unfold find_route at h
    by_cases hknown : (alookup rf.edges startE).isNone ∨ (alookup rf.edges endE).isNone
    · rw [if_pos hknown] at h
      injection h with h
      exact absurd h.symm hlne
    · rw [if_neg hknown] at h
      have hs : (alookup rf.edges startE).isSome := by
        rcases ho : alookup rf.edges startE with _ | w
        · exact absurd (Or.inl (by rw [ho]; rfl)) hknown
        · rfl
      have hkk0 : KeysKnown rf (initState startE) := by
        intro v hv
        by_cases hvs : v = startE
        · rw [hvs]
          exact hs
        · simp [initState, alookup, hvs] at hv
      rcases hloop : dijkstraLoop rf sim check endE (dijkstraFuel rf) (initState startE)
        with _ | st
      · rw [hloop] at h
        simp at h
      · rw [hloop] at h
        have hinv := dijkstraLoop_preserves rf sim check endE startE _ _ _ hloop
          (initState_inv rf sim check startE)
        have hkk := dijkstraLoop_keysKnown rf sim check endE hwf _ _ _ hloop hkk0
        rcases hpar : alookup st.parents endE with _ | pv
        · simp only [hpar] at h
          injection h with h
          exact absurd h.symm hlne
        · simp only [hpar] at h
          rcases hr : reconstruct st.parents (st.parents.length + 1) endE with _ | path
          · rw [hr] at h
            simp at h
          · rw [hr] at h
            injection h with h
            rcases reconstruct_shape st.parents _ _ _ hr with ⟨hp0, _⟩ |
              ⟨hhead, hchain, last, hlast, hroot⟩
            · rw [hp0] at h
              exact absurd h.symm (by simpa using hlne)
            · have hlastStart : last = startE := by
                rcases hroot with hroot | hroot
                · exact hinv.rootOnly last none hroot rfl
                · exfalso
                  have hv : "" ∈ st.visited := hinv.parentVisited last "" hroot
                  have hps : (alookup st.parents "").isSome := hinv.visitedKeys "" hv
                  have hes : (alookup rf.edges "").isSome := hkk "" hps
                  rw [hne] at hes
                  simp at hes
              refine ⟨?_, ?_, ?_⟩
              · rw [← h, List.head?_reverse, hlast, hlastStart]
              · rw [← h, List.getLast?_reverse]
                exact hhead
              · rw [← h, List.chain'_reverse]
                refine List.Chain'.imp ?_ hchain
                intro a b hab
                exact (hinv.adj a b hab).2
  · intro heq hsome
    rw [← heq] at h
    have hne0 : startE ≠ "" := by
      intro hcon
      rw [hcon] at hsome
      rw [hne] at hsome
      simp at hsome
    rw [find_route_self rf sim startE check hsome hne0] at h
    injection h with h
    exact h.symm

/-- Fixed input for the C10 counterexample: a network whose only edge has
the empty string as id. -/
def c10rf : RouteFinder := ⟨[("", 1)], [("", [])]⟩

/-- C10 counterexample: on a parsed graph containing an edge with the empty
id, find_route from that edge to itself returns the empty path rather than
the claimed one-element path — the Python reconstruction loop is guarded by
the string's truthiness, and the empty string is falsy. -/
theorem find_route_empty_id_cex :
    (alookup c10rf.edges "").isSome = true ∧
    find_route c10rf c5sim "" "" true = some [] ∧
    ([] : List String) ≠ [""] := by
  refine ⟨by decide, by decide, by decide⟩

/-- Concrete instantiation of the C10 theorem: the returned path A-B starts
at A and ends at B; and the start-equals-destination route is the singleton. -/
theorem find_route_path_shape_witness :
    (["A", "B"] : List String).head? = some "A" ∧
    (["A", "B"] : List String).getLast? = some "B" := by
  have h := find_route_path_shape c5rf c5sim (by decide) (by decide) "A" "B" true
    ["A", "B"] (by decide)
  have h1 := h.1 (by decide)
  exact ⟨h1.1, h1.2.1⟩

/-- Concrete instantiation of the C2 amended theorem: on the blocked-start
network, any blocked member of the returned path A-B is the start edge A. -/
theorem find_route_blocked_only_start_witness : ("A" : String) = "A" := by
  have h := find_route_blocked_only_start c2rf c2sim "A" "B" ["A", "B"] (by decide)
  exact h "A" (by decide) (by decide)
